import Mathlib

/-!
Verification of the fvc-rs repository (File Verification Code calculator).

The development shallowly embeds the Rust sources:
  * `src/lib/version_2.rs`  — the FVC2 hasher (`FVC2Hasher`);
  * `src/lib/extract.rs`    — the extractability classifier (`is_extractable`);
  * `src/main/process/process_extract/dag.rs` — the archive identity DAG;
  * `src/main/process/process_extract/mod.rs` — the extraction traversal.

Bytes are modelled as `Nat` (values < 256 in practice), byte strings as
`List Nat`, and SHA-256 is implemented concretely (FIPS 180-4) so that all
definitions are executable.
-/

namespace FVC

/-- Truncate to a 32-bit word, as Rust `u32` arithmetic does. -/
def w32 (n : Nat) : Nat := n % 4294967296

/-- 32-bit right rotation. -/
def rotr (n x : Nat) : Nat := w32 ((x >>> n) ||| (x <<< (32 - n)))

/-- Big-endian byte encoding of `n` into `k` bytes (most significant first). -/
def toBytesBE (k n : Nat) : List Nat :=
  (List.range k).map (fun i => (n >>> (8 * (k - 1 - i))) % 256)

/-- SHA-256 round constants. -/
def sha256K : List Nat :=
  [1116352408, 1899447441, 3049323471, 3921009573, 961987163, 1508970993, 2453635748, 2870763221,
   3624381080, 310598401, 607225278, 1426881987, 1925078388, 2162078206, 2614888103, 3248222580,
   3835390401, 4022224774, 264347078, 604807628, 770255983, 1249150122, 1555081692, 1996064986,
   2554220882, 2821834349, 2952996808, 3210313671, 3336571891, 3584528711, 113926993, 338241895,
   666307205, 773529912, 1294757372, 1396182291, 1695183700, 1986661051, 2177026350, 2456956037,
   2730485921, 2820302411, 3259730800, 3345764771, 3516065817, 3600352804, 4094571909, 275423344,
   430227734, 506948616, 659060556, 883997877, 958139571, 1322822218, 1537002063, 1747873779,
   1955562222, 2024104815, 2227730452, 2361852424, 2428436474, 2756734187, 3204031479, 3329325298]

/-- SHA-256 initial hash state. -/
def sha256H0 : List Nat :=
  [1779033703, 3144134277, 1013904242, 2773480762, 1359893119, 2600822924, 528734635, 1541459225]

/-- FIPS 180-4 padding: append 128, zero bytes to 56 mod 64, then the
64-bit big-endian bit length. -/
def sha256pad (msg : List Nat) : List Nat :=
  let len := msg.length
  let zeros := (119 - len % 64) % 64
  msg ++ [0x80] ++ List.replicate zeros 0 ++ toBytesBE 8 (len * 8)

/-- Read a big-endian 32-bit word at byte offset `off`. -/
def wordAt (l : List Nat) (off : Nat) : Nat :=
  (l.getD off 0) <<< 24 ||| (l.getD (off + 1) 0) <<< 16 |||
  (l.getD (off + 2) 0) <<< 8 ||| l.getD (off + 3) 0

/-- Message schedule (64 words) for the 64-byte block at byte offset `off`. -/
def sha256schedule (l : List Nat) (off : Nat) : List Nat :=
  let init := (List.range 16).map (fun j => wordAt l (off + 4 * j))
  (List.range 48).foldl
    (fun w _ =>
      let n := w.length
      let x15 := w.getD (n - 15) 0
      let x2 := w.getD (n - 2) 0
      let s0 := w32 (rotr 7 x15 ^^^ rotr 18 x15 ^^^ (x15 >>> 3))
      let s1 := w32 (rotr 17 x2 ^^^ rotr 19 x2 ^^^ (x2 >>> 10))
      w ++ [w32 (w.getD (n - 16) 0 + s0 + w.getD (n - 7) 0 + s1)])
    init

/-- One SHA-256 compression round step on the eight working registers. -/
def sha256round (w : List Nat) (st : List Nat) (t : Nat) : List Nat :=
  match st with
  | [a, b, c, d, e, f, g, h] =>
    let s1 := w32 (rotr 6 e ^^^ rotr 11 e ^^^ rotr 25 e)
    let ch := w32 ((e &&& f) ^^^ ((e ^^^ 0xffffffff) &&& g))
    let temp1 := w32 (h + s1 + ch + sha256K.getD t 0 + w.getD t 0)
    let s0 := w32 (rotr 2 a ^^^ rotr 13 a ^^^ rotr 22 a)
    let maj := w32 ((a &&& b) ^^^ (a &&& c) ^^^ (b &&& c))
    let temp2 := w32 (s0 + maj)
    [w32 (temp1 + temp2), a, b, c, w32 (d + temp1), e, f, g]
  | other => other

/-- SHA-256 compression of one block (message schedule `w`) into state `hs`. -/
def sha256compress (hs : List Nat) (w : List Nat) : List Nat :=
  match hs, (List.range 64).foldl (sha256round w) hs with
  | [h0, h1, h2, h3, h4, h5, h6, h7], [a, b, c, d, e, f, g, h] =>
    [w32 (h0 + a), w32 (h1 + b), w32 (h2 + c), w32 (h3 + d),
     w32 (h4 + e), w32 (h5 + f), w32 (h6 + g), w32 (h7 + h)]
  | _, _ => hs

/-- SHA-256 of a byte string, as a list of 32 bytes. -/
def sha256 (msg : List Nat) : List Nat :=
  let p := sha256pad msg
  let nblocks := p.length / 64
  let hs := (List.range nblocks).foldl (fun hs i => sha256compress hs (sha256schedule p (64 * i))) sha256H0
  hs.foldr (fun h acc => toBytesBE 4 h ++ acc) []

/-! ### The FVC2 hasher (`src/lib/version_2.rs`) -/

/-- A stored digest: the bytes of a SHA-256 value (32 bytes in practice). -/
abbrev Digest := List Nat

/-- Byte-wise lexicographic comparison: the order by which
`Vec<[u8; 32]>::sort()` sorts the stored digests (`Ord` on `[u8; 32]`). -/
def digestLE : Digest → Digest → Bool
  | [], _ => true
  | _ :: _, [] => false
  | a :: as, b :: bs => if a < b then true else if b < a then false else digestLE as bs

theorem digestLE_total : ∀ a b : Digest, (digestLE a b || digestLE b a) = true := by
  intro a
  induction a with
  | nil => intro b; simp [digestLE]
  | cons x xs ih =>
    intro b
    cases b with
    | nil => simp [digestLE]
    | cons y ys =>
      by_cases h1 : x < y
      · simp [digestLE, h1]
      · by_cases h2 : y < x
        · simp [digestLE, h1, h2]
        · simpa [digestLE, h1, h2] using ih ys

theorem digestLE_trans :
    ∀ a b c : Digest, digestLE a b = true → digestLE b c = true → digestLE a c = true := by
  intro a
  induction a with
  | nil => intro b c _ _; simp [digestLE]
  | cons x xs ih =>
    intro b c hab hbc
    cases b with
    | nil => simp [digestLE] at hab
    | cons y ys =>
      cases c with
      | nil => simp [digestLE] at hbc
      | cons z zs =>
        by_cases hxy : x < y
        · by_cases hyz : y < z
          · simp [digestLE, show x < z by omega]
          · by_cases hzy : z < y
            · simp [digestLE, hxy, hyz, hzy] at hbc
            · have : y = z := by omega
              subst this
              simp [digestLE, hxy]
        · by_cases hyx : y < x
          · simp [digestLE, hxy, hyx] at hab
          · have hexy : x = y := by omega
            subst hexy
            by_cases hxz : x < z
            · simp [digestLE, hxz]
            · by_cases hzx : z < x
              · simp [digestLE, hxz, hzx] at hbc ⊢
              · simp only [digestLE, if_neg hxy, if_neg hyx, if_neg hxz, if_neg hzx] at hab hbc ⊢
                exact ih ys zs hab hbc

theorem digestLE_antisymm :
    ∀ a b : Digest, digestLE a b = true → digestLE b a = true → a = b := by
  intro a
  induction a with
  | nil =>
    intro b _ hba
    cases b with
    | nil => rfl
    | cons y ys => simp [digestLE] at hba
  | cons x xs ih =>
    intro b hab hba
    cases b with
    | nil => simp [digestLE] at hab
    | cons y ys =>
      by_cases hxy : x < y
      · simp [digestLE, hxy, show ¬ y < x by omega] at hba
      · by_cases hyx : y < x
        · simp [digestLE, hxy, hyx] at hab
        · have : x = y := by omega
          subst this
          simp only [digestLE, if_neg hxy] at hab hba
          rw [ih ys hab hba]

/-- Sorting with `digestLE` sends permuted lists to the same result:
sorted outputs of permutations coincide because `digestLE` is antisymmetric. -/
theorem mergeSort_digestLE_eq_of_perm {l₁ l₂ : List Digest} (hp : l₁.Perm l₂) :
    l₁.mergeSort digestLE = l₂.mergeSort digestLE := by
  haveI ha : IsAntisymm Digest (fun a b => digestLE a b = true) :=
    ⟨fun a b hab hba => digestLE_antisymm a b hab hba⟩
  exact @List.eq_of_perm_of_sorted Digest (fun a b => digestLE a b = true) ha _ _
    (((l₁.mergeSort_perm digestLE).trans hp).trans (l₂.mergeSort_perm digestLE).symm)
    (List.sorted_mergeSort (fun a b c => digestLE_trans a b c) digestLE_total l₁)
    (List.sorted_mergeSort (fun a b c => digestLE_trans a b c) digestLE_total l₂)

/-- The state of `FVC2Hasher`: the stored digests and the `sorted` flag. -/
structure FVC2Hasher where
  sha256s : List Digest
  sorted : Bool
deriving DecidableEq

/-- `FVC2Hasher::new()`. -/
def FVC2Hasher.new : FVC2Hasher := ⟨[], false⟩

/-- `FVCHasher::read` for `FVC2Hasher`: hash the reader's bytes, store the
digest, clear the sorted flag, and return the byte count.  (I/O errors of the
reader are outside the model: the byte content is given directly.) -/
def FVC2Hasher.read (h : FVC2Hasher) (buf : List Nat) : Nat × FVC2Hasher :=
  (buf.length, ⟨h.sha256s ++ [sha256 buf], false⟩)

/-- `FVCSha256Hasher::read_sha256` for `FVC2Hasher`: push the digest and
clear the sorted flag. -/
def FVC2Hasher.read_sha256 (h : FVC2Hasher) (d : Digest) : FVC2Hasher :=
  ⟨h.sha256s ++ [d], false⟩

/-- `FVC2Hasher::sum`: sort the stored digests unless already sorted, feed
them into a fresh SHA-256 hasher in order (streaming `update` calls hash the
concatenation), and prepend `F V C 2 0x00`.  Returns the 37-byte code and the
post-call hasher state. -/
def FVC2Hasher.sum (h : FVC2Hasher) : List Nat × FVC2Hasher :=
  let s := if h.sorted then h.sha256s else h.sha256s.mergeSort digestLE
  ([0x46, 0x56, 0x43, 0x32, 0x00] ++ sha256 s.flatten, ⟨s, true⟩)

/-- One ingestion into the hasher: via `read` (raw bytes) or `read_sha256`
(a precomputed digest). -/
inductive Ing where
  | bytes (b : List Nat)
  | digest (d : Digest)
deriving DecidableEq

/-- Apply one ingestion to the hasher state. -/
def FVC2Hasher.ingest (h : FVC2Hasher) : Ing → FVC2Hasher
  | .bytes b => (h.read b).2
  | .digest d => h.read_sha256 d

/-- The digest an ingestion stores. -/
def Ing.stored : Ing → Digest
  | .bytes b => sha256 b
  | .digest d => d

/-- Run a sequence of ingestions on a fresh hasher. -/
def runIngest (ops : List Ing) : FVC2Hasher := ops.foldl FVC2Hasher.ingest .new

theorem foldl_ingest_eq (ops : List Ing) :
    ∀ l : List Digest, (ops.foldl FVC2Hasher.ingest ⟨l, false⟩) = ⟨l ++ ops.map Ing.stored, false⟩ := by
  induction ops with
  | nil => intro l; simp
  | cons op ops ih =>
    intro l
    have hstep : FVC2Hasher.ingest ⟨l, false⟩ op = ⟨l ++ [op.stored], false⟩ := by
      cases op <;> rfl
    simp only [List.foldl_cons, hstep, ih, List.map_cons]
    simp

theorem runIngest_eq (ops : List Ing) : runIngest ops = ⟨ops.map Ing.stored, false⟩ := by
  simpa using foldl_ingest_eq ops []

/-- `(sha256 msg).length = 32`: helper facts about output sizes. -/
theorem toBytesBE_length (k n : Nat) : (toBytesBE k n).length = k := by
  simp [toBytesBE]

theorem sha256compress_length (hs w : List Nat) : (sha256compress hs w).length = hs.length := by
  unfold sha256compress
  split
  · rename_i h₁ h₂; simp
  · rfl

theorem sha256_length (msg : List Nat) : (sha256 msg).length = 32 := by
  unfold sha256
  have hfold : ∀ (l : List Nat) (hs : List Nat), hs.length = 8 →
      (l.foldl (fun a i => sha256compress a (sha256schedule (sha256pad msg) (64 * i))) hs).length = 8 := by
    intro l
    induction l with
    | nil => intro hs h; exact h
    | cons x xs ih =>
      intro hs h
      exact ih _ (by rw [sha256compress_length]; exact h)
  have hbytes : ∀ hs : List Nat,
      (hs.foldr (fun h acc => toBytesBE 4 h ++ acc) []).length = 4 * hs.length := by
    intro hs
    induction hs with
    | nil => rfl
    | cons h t ih => simp [toBytesBE_length, ih]; ring
  rw [hbytes, hfold _ _ (by rfl)]

/-- The FVC2 code exactly as the specification words it:
`"FVC2" || 0x00 || SHA256(sort_ascending(digests) as concatenation)`. -/
def fvc2spec (ds : List Digest) : List Nat :=
  [0x46, 0x56, 0x43, 0x32, 0x00] ++ sha256 (ds.mergeSort digestLE).flatten

/-- C1: for every sequence of ingested digests, `sum()` returns exactly 37
bytes: the prefix `0x46 0x56 0x43 0x32 0x00` followed by the SHA-256 of the
byte-wise-ascending sorted concatenation of the stored digests; with no
digests ingested, it returns the prefix followed by SHA-256 of the empty
byte string. -/
theorem fvc2_sum_format (ops : List Ing) :
    (runIngest ops).sum.1 = fvc2spec (ops.map Ing.stored)
    ∧ (runIngest ops).sum.1.length = 37
    ∧ FVC2Hasher.new.sum.1 = [0x46, 0x56, 0x43, 0x32, 0x00] ++ sha256 [] := by
  refine ⟨?_, ?_, ?_⟩
  · rw [runIngest_eq]
    simp [FVC2Hasher.sum, fvc2spec]
  · rw [runIngest_eq]
    simp [FVC2Hasher.sum, sha256_length]
  · simp [FVC2Hasher.sum, FVC2Hasher.new]

/-- C2: the code returned by `sum()` depends only on the multiset of
ingested digests; `sum()` is idempotent; and ingesting after a `sum()` then
summing again yields the code of the enlarged multiset. -/
theorem fvc2_sum_multiset :
    (∀ ops₁ ops₂ : List Ing, (ops₁.map Ing.stored).Perm (ops₂.map Ing.stored) →
      (runIngest ops₁).sum.1 = (runIngest ops₂).sum.1)
    ∧ (∀ h : FVC2Hasher, (h.sum.2).sum.1 = h.sum.1)
    ∧ (∀ (ops : List Ing) (op : Ing),
      (((runIngest ops).sum.2).ingest op).sum.1 = (runIngest (ops ++ [op])).sum.1) := by
  refine ⟨?_, ?_, ?_⟩
  · intro ops₁ ops₂ hp
    rw [runIngest_eq, runIngest_eq]
    simp only [FVC2Hasher.sum, Bool.false_eq_true, if_false]
    rw [mergeSort_digestLE_eq_of_perm hp]
  · intro h
    simp [FVC2Hasher.sum]
  · intro ops op
    rw [runIngest_eq, runIngest_eq]
    have hingest : ∀ l : List Digest,
        FVC2Hasher.ingest ⟨l, true⟩ op = ⟨l ++ [op.stored], false⟩ := by
      intro l; cases op <;> rfl
    simp only [FVC2Hasher.sum, hingest]
    have hperm : ((ops.map Ing.stored).mergeSort digestLE ++ [op.stored]).Perm
        ((ops ++ [op]).map Ing.stored) := by
      simp only [List.map_append, List.map_cons, List.map_nil]
      exact ((ops.map Ing.stored).mergeSort_perm digestLE).append_right _
    simp only [if_neg (by simp : ¬ (false = true))]
    rw [mergeSort_digestLE_eq_of_perm hperm]

/-- Witness for C2: a concrete permuted pair of ingestion sequences. -/
theorem fvc2_sum_multiset_w :
    (([Ing.digest [1], Ing.digest [2]]).map Ing.stored).Perm
      (([Ing.digest [2], Ing.digest [1]]).map Ing.stored)
    ∧ (runIngest [Ing.digest [1], Ing.digest [2]]).sum.1
      = (runIngest [Ing.digest [2], Ing.digest [1]]).sum.1 :=
  ⟨by decide, fvc2_sum_multiset.1 _ _ (by decide)⟩

/-! ### The extractability classifier (`src/lib/extract.rs`)

Paths are modelled as lists of components (relative paths of normal
components, which is what the classifier receives in this repository);
`Path::to_str` renders them joined by `/`, and component strings are assumed
UTF-8 (Rust's `to_str` never fails in the model). -/

/-- A filesystem path: its list of components. -/
abbrev FsPath := List String

/-- The extension of a file name, following Rust `Path::extension`: the
portion after the last dot, unless that dot is the leading character or
there is no dot. -/
def extOfName (name : String) : Option String :=
  let cs := name.toList
  let rcs := cs.reverse
  if '.' ∈ rcs then
    let j := rcs.indexOf '.'
    if cs.length - 1 - j = 0 then none
    else some (String.mk (rcs.take j).reverse)
  else none

/-- The extension of a path: the extension of its final component. -/
def pathExt (p : FsPath) : Option String :=
  match p.getLast? with
  | none => none
  | some name => extOfName name

/-- The file stem: the final component without its extension. -/
def stemOfName (name : String) : String :=
  match extOfName name with
  | none => name
  | some e => String.mk (name.toList.take (name.length - e.length - 1))

/-- Rust `PathBuf::set_extension("idx")` on a clone of the path: replace the
final component's extension with `idx`.  `none` models the method returning
`false` (no file name), after which the classifier takes `has_idx = false`. -/
def setExtIdx (p : FsPath) : Option FsPath :=
  match p.getLast? with
  | none => none
  | some name => some (p.dropLast ++ [stemOfName name ++ ".idx"])

/-- Rust `Path::parent`: the path minus its final component; `none` for the
empty path. -/
def pathParent (p : FsPath) : Option FsPath :=
  match p with
  | [] => none
  | _ => some p.dropLast

/-- Rust `Path::to_str` in this model: components joined with `/`. -/
def pathStr (p : FsPath) : String := String.intercalate "/" p

/-- The closed list `VALID_EXTENSIONS` of `src/lib/extract.rs`. -/
def VALID_EXTENSIONS : List String :=
  ["ar", "arj", "cpio", "dump", "jar", "7z", "zip", "pack", "pack2000", "tar", "bz2",
   "gz", "lzma", "snz", "xz", "z", "tgz", "rpm", "gem", "deb", "whl", "apk", "zst"]

/-- `is_extractable(path)`, with the ambient filesystem `fs` (the list of
existing paths) supplied for the `idx_path.exists()` probe.  Mirrors
`src/lib/extract.rs`: note that the comparisons `s == *valid` are
case-sensitive, and that `in_objects_dir` compares the *entire* parent path
string against `"objects"`. -/
def is_extractable (fs : List FsPath) (path : FsPath) : Nat :=
  match pathExt path with
  | none => 0
  | some s =>
    if s = "pack" then
      let has_idx := match setExtIdx path with
        | some idx_path => fs.contains idx_path
        | none => false
      let in_objects_dir := match pathParent path with
        | none => false
        | some par => pathStr par == "objects"
      if has_idx && in_objects_dir then 0
      else if has_idx || in_objects_dir then 50
      else 100
    else
      if VALID_EXTENSIONS.any (fun v => s == v) then 100 else 0

/-- C4 counterexample: extension comparison is case-sensitive.  `x.ZIP` has
extension `ZIP`, not equal to `pack`, whose lowercase form `zip` is in the
closed set, so the claim requires 100 — but the classifier returns 0. -/
theorem is_extractable_case_cx :
    pathExt ["x.ZIP"] = some "ZIP"
    ∧ "ZIP".data.map Char.toLower = "zip".data
    ∧ VALID_EXTENSIONS.contains "zip" = true
    ∧ is_extractable [] ["x.ZIP"] = 0 := by decide

/-- C4 amended: for every path whose extension is not `pack`, the classifier
returns 100 exactly when the extension, compared *case-sensitively*, is in
the closed set, and 0 otherwise (including when there is no extension). -/
theorem is_extractable_non_pack (fs : List FsPath) (path : FsPath)
    (h : pathExt path ≠ some "pack") :
    is_extractable fs path =
      (match pathExt path with
       | none => 0
       | some s => if s ∈ VALID_EXTENSIONS then 100 else 0) := by
  unfold is_extractable
  cases hx : pathExt path with
  | none => rfl
  | some s =>
    have hs : s ≠ "pack" := fun he => h (by rw [hx, he])
    by_cases hmem : s ∈ VALID_EXTENSIONS
    · simp only [if_neg hs]
      rw [if_pos hmem, if_pos]
      simp only [List.any_eq_true, beq_iff_eq]
      exact ⟨s, hmem, rfl⟩
    · simp only [if_neg hs]
      rw [if_neg hmem, if_neg]
      simp only [List.any_eq_true, beq_iff_eq, not_exists, not_and]
      intro v hv he
      exact hmem (he ▸ hv)

/-- Witness for the amended C4 at a concrete input. -/
theorem is_extractable_non_pack_w :
    pathExt ["a.zip"] ≠ some "pack" ∧ is_extractable [] ["a.zip"] = 100 := by
  refine ⟨by decide, ?_⟩
  rw [is_extractable_non_pack [] ["a.zip"] (by decide)]
  decide

/-- C5 counterexample: for the nested git-pack path
`repo/objects/pack-abc.pack` with existing sibling
`repo/objects/pack-abc.idx`, the immediate parent directory component is
`objects` and the idx sibling exists, so the claim requires 0 — but the code
compares the whole parent string `repo/objects` with `objects` and
returns 50. -/
theorem is_extractable_pack_cx :
    setExtIdx ["repo", "objects", "pack-abc.pack"] = some ["repo", "objects", "pack-abc.idx"]
    ∧ (pathParent ["repo", "objects", "pack-abc.pack"]).bind List.getLast? = some "objects"
    ∧ is_extractable [["repo", "objects", "pack-abc.idx"]] ["repo", "objects", "pack-abc.pack"] = 50 := by
  decide

/-- C5 amended: for every path with extension `pack`, with
`has_idx` = the idx sibling exists and `in_objects_dir` = the *entire parent
path string* equals `objects` (so only a top-level `objects/…` path
qualifies, not one at deeper nesting), the classifier returns 0 when both
hold, 50 when exactly one holds, and 100 when neither holds. -/
theorem is_extractable_pack (fs : List FsPath) (path : FsPath)
    (h : pathExt path = some "pack") :
    is_extractable fs path =
      (let has_idx := match setExtIdx path with
        | some idx_path => fs.contains idx_path
        | none => false
       let in_objects_dir := match pathParent path with
        | none => false
        | some par => pathStr par == "objects"
       if has_idx && in_objects_dir then 0
       else if has_idx || in_objects_dir then 50
       else 100) := by
  unfold is_extractable
  rw [h]
  simp

/-- Witness for the amended C5 at a concrete input: the spec's S7 scenario
`objects/pack-abc.pack` with sibling `objects/pack-abc.idx` classifies 0. -/
theorem is_extractable_pack_w :
    pathExt ["objects", "pack-abc.pack"] = some "pack"
    ∧ is_extractable [["objects", "pack-abc.idx"]] ["objects", "pack-abc.pack"] = 0 := by
  refine ⟨by decide, ?_⟩
  rw [is_extractable_pack [["objects", "pack-abc.idx"]] ["objects", "pack-abc.pack"] (by decide)]
  decide

/-! ### The archive identity DAG (`src/main/process/process_extract/dag.rs`) -/

/-- Association-list primitive for `HashMap::get`: first matching key. -/
def alGet : List (Digest × List Digest) → Digest → Option (List Digest)
  | [], _ => none
  | e :: rest, k => if e.1 = k then some e.2 else alGet rest k

/-- Association-list primitive for `HashMap::insert`: replace the first
matching entry, or append a new one. -/
def alSet : List (Digest × List Digest) → Digest → List Digest → List (Digest × List Digest)
  | [], k, v => [(k, v)]
  | e :: rest, k, v => if e.1 = k then (k, v) :: rest else e :: alSet rest k v

theorem alGet_set_self (l : List (Digest × List Digest)) (k : Digest) (v : List Digest) :
    alGet (alSet l k v) k = some v := by
  induction l with
  | nil => simp [alGet, alSet]
  | cons e rest ih =>
    by_cases h : e.1 = k
    · simp [alGet, alSet, h]
    · simp [alGet, alSet, h, ih]

theorem alGet_set_ne (l : List (Digest × List Digest)) (k k' : Digest) (v : List Digest)
    (h : k' ≠ k) : alGet (alSet l k v) k' = alGet l k' := by
  have hk : k ≠ k' := fun he => h he.symm
  induction l with
  | nil => simp [alGet, alSet, hk]
  | cons e rest ih =>
    by_cases he : e.1 = k
    · have he2 : e.1 ≠ k' := by rw [he]; exact hk
      simp [alGet, alSet, he, hk, he2]
    · by_cases he' : e.1 = k'
      · simp [alGet, alSet, he, he', h, hk]
      · simp [alGet, alSet, he, he', ih]

theorem alSet_length (l : List (Digest × List Digest)) (k : Digest) (v : List Digest) :
    (alSet l k v).length = l.length ∨ (alSet l k v).length = l.length + 1 := by
  induction l with
  | nil => simp [alSet]
  | cons e rest ih =>
    by_cases h : e.1 = k
    · simp [alSet, h]
    · rcases ih with ih | ih <;> simp [alSet, h, ih]

theorem alGet_mem_keys (l : List (Digest × List Digest)) (k : Digest) (v : List Digest)
    (h : alGet l k = some v) : k ∈ l.map Prod.fst := by
  induction l with
  | nil => simp [alGet] at h
  | cons e rest ih =>
    by_cases he : e.1 = k
    · simp [he ▸ List.mem_map_of_mem Prod.fst (List.mem_cons_self e rest)]
      exact Or.inl he.symm
    · simp only [alGet, if_neg he] at h
      simp [ih h]

/-- `ArchiveGraph`: `HashMap<[u8; 32], Archive>` modelled as an association
list from digest to the node's `sub_archives` list (each `Archive`'s
`sha256` field always equals its key, so only the out-edge list is kept). -/
structure ArchiveGraph where
  archives : List (Digest × List Digest)
deriving DecidableEq

/-- `ArchiveGraph::new()`. -/
def ArchiveGraph.new : ArchiveGraph := ⟨[]⟩

/-- `self.archives.get(&k)`, yielding the node's `sub_archives`. -/
def ArchiveGraph.get (g : ArchiveGraph) (k : Digest) : Option (List Digest) :=
  alGet g.archives k

/-- `ArchiveGraph::contains`. -/
def ArchiveGraph.containsB (g : ArchiveGraph) (k : Digest) : Bool :=
  (g.get k).isSome

/-- `ArchiveGraph::insert`: `HashMap::insert(sha256, Archive::new(sha256))` —
replaces any existing node (resetting its out-edges). -/
def ArchiveGraph.insert (g : ArchiveGraph) (d : Digest) : ArchiveGraph :=
  ⟨alSet g.archives d []⟩

/-- `EdgeResult` of `dag.rs`. -/
inductive EdgeResult where
  | ok
  | cycleDetected
  | keyMissing (d : Digest)
deriving DecidableEq

/-- `ArchiveGraph::archive_can_find(start, destination)` with explicit
recursion fuel.  The Rust function recurses with no visited set, relying on
the graph's acyclicity for termination; the model bounds the depth by
`fuel`.  `archive_can_find` instantiates the fuel at `#nodes + 1`, which
`canFind_iff` below proves computes exactly the chain relation `CanFind`
(so the model agrees with the Rust recursion wherever the latter
terminates). -/
def canFindFuel (g : ArchiveGraph) : Nat → Digest → Digest → Bool
  | 0, _, _ => false
  | fuel + 1, start, dest =>
    if start = dest then true
    else
      match g.get start with
      | none => false
      | some subs =>
        match g.get dest with
        | none => false
        | some _ =>
          subs.any fun s =>
            match g.get s with
            | none => false
            | some _ => canFindFuel g fuel s dest

/-- `ArchiveGraph::archive_can_find`. -/
def ArchiveGraph.archive_can_find (g : ArchiveGraph) (start dest : Digest) : Bool :=
  canFindFuel g (g.archives.length + 1) start dest

/-- `ArchiveGraph::add_edge(from, to)`: reject if `to` can already find
`from`; report a missing key if `from` is unregistered; otherwise push `to`
onto `from`'s `sub_archives`. -/
def ArchiveGraph.add_edge (g : ArchiveGraph) (a b : Digest) : EdgeResult × ArchiveGraph :=
  if g.archive_can_find b a then (.cycleDetected, g)
  else
    match g.get a with
    | none => (.keyMissing a, g)
    | some subs => (.ok, ⟨alSet g.archives a (subs ++ [b])⟩)

/-- An edge of the graph: `b` is listed among `a`'s `sub_archives`. -/
def EdgeP (g : ArchiveGraph) (a b : Digest) : Prop :=
  ∃ subs, g.get a = some subs ∧ b ∈ subs

/-- Plain reachability over the current edge set (reflexive-transitive). -/
def ReachP (g : ArchiveGraph) : Digest → Digest → Prop :=
  Relation.ReflTransGen (EdgeP g)

/-- The relation `archive_can_find` computes: reflexivity, or a nonempty
edge chain all of whose nodes (source, intermediates, destination) are
registered. -/
inductive CanFind (g : ArchiveGraph) : Digest → Digest → Prop where
  | refl (a : Digest) : CanFind g a a
  | step {a s b : Digest} {subs : List Digest} :
      g.get a = some subs → s ∈ subs → (g.get s).isSome = true →
      (g.get b).isSome = true → CanFind g s b → CanFind g a b

/-- Acyclicity: no digest reaches itself through one or more edges. -/
def Acyclic (g : ArchiveGraph) : Prop := ∀ a, ¬ Relation.TransGen (EdgeP g) a a

/-- Soundness of the fuelled search: a `true` answer at any fuel yields a
`CanFind` chain. -/
theorem canFind_of_fuel (g : ArchiveGraph) :
    ∀ (f : Nat) (a b : Digest), canFindFuel g f a b = true → CanFind g a b := by
  intro f
  induction f with
  | zero => intro a b h; simp [canFindFuel] at h
  | succ f ih =>
    intro a b h
    by_cases hab : a = b
    · exact hab ▸ CanFind.refl a
    · simp only [canFindFuel, if_neg hab] at h
      cases hga : g.get a with
      | none => rw [hga] at h; simp at h
      | some subs =>
        rw [hga] at h
        cases hgb : g.get b with
        | none => rw [hgb] at h; simp at h
        | some bsubs =>
          rw [hgb] at h
          simp only [List.any_eq_true] at h
          obtain ⟨s, hs, hrec⟩ := h
          cases hgs : g.get s with
          | none => rw [hgs] at hrec; simp at hrec
          | some ssubs =>
            rw [hgs] at hrec
            exact CanFind.step hga hs (by simp [hgs]) (by simp [hgb]) (ih s b hrec)

/-- A registered chain witness: edges from `a` through the successive nodes
of `l`, ending at `b` (empty `l` means `a = b`). -/
def chainTo (g : ArchiveGraph) : Digest → List Digest → Digest → Bool
  | a, [], b => a == b
  | a, s :: rest, b =>
    (match g.get a with
     | none => false
     | some subs => subs.contains s) && (g.get s).isSome && chainTo g s rest b

theorem chain_of_canFind {g : ArchiveGraph} {a b : Digest} (h : CanFind g a b) :
    ∃ l, chainTo g a l b = true := by
  induction h with
  | refl a => exact ⟨[], by simp [chainTo]⟩
  | step hga hs hsreg hbreg hcf ih =>
    obtain ⟨l, hl⟩ := ih
    rename_i a s b subs
    refine ⟨s :: l, ?_⟩
    simp only [chainTo, Bool.and_eq_true]
    exact ⟨⟨by rw [hga]; exact List.elem_eq_true_of_mem hs, hsreg⟩, hl⟩

theorem chainTo_all_reg {g : ArchiveGraph} :
    ∀ (l : List Digest) (a b : Digest), chainTo g a l b = true →
      ∀ x ∈ l, (g.get x).isSome = true := by
  intro l
  induction l with
  | nil => intro a b _ x hx; simp at hx
  | cons s rest ih =>
    intro a b h x hx
    simp only [chainTo, Bool.and_eq_true] at h
    obtain ⟨⟨_, h2⟩, h3⟩ := h
    rcases List.mem_cons.mp hx with rfl | hx'
    · exact h2
    · exact ih s b h3 x hx'

theorem chainTo_reg_last {g : ArchiveGraph} :
    ∀ (l : List Digest) (a b : Digest), chainTo g a l b = true → l ≠ [] →
      (g.get b).isSome = true := by
  intro l
  induction l with
  | nil => intro a b _ hne; exact absurd rfl hne
  | cons s rest ih =>
    intro a b h _
    simp only [chainTo, Bool.and_eq_true] at h
    obtain ⟨⟨_, h2⟩, h3⟩ := h
    cases rest with
    | nil =>
      have hsb : s = b := by simpa [chainTo] using h3
      exact hsb ▸ h2
    | cons t ts => exact ih s b h3 (by simp)

theorem chainTo_decomp {g : ArchiveGraph} :
    ∀ (l1 : List Digest) (a x : Digest) (l2 : List Digest) (b : Digest),
      chainTo g a (l1 ++ x :: l2) b = true → chainTo g x l2 b = true := by
  intro l1
  induction l1 with
  | nil =>
    intro a x l2 b h
    simp only [List.nil_append, chainTo, Bool.and_eq_true] at h
    exact h.2
  | cons y l1 ih =>
    intro a x l2 b h
    simp only [List.cons_append, chainTo, Bool.and_eq_true] at h
    exact ih y x l2 b h.2

/-- Any chain can be shortened to a duplicate-free chain that avoids its
start node (cut at a repeated node). -/
theorem chainTo_shorten {g : ArchiveGraph} :
    ∀ (n : Nat) (a : Digest) (l : List Digest) (b : Digest), l.length ≤ n →
      chainTo g a l b = true →
      ∃ l', chainTo g a l' b = true ∧ l'.Nodup ∧ a ∉ l' ∧ l' ⊆ l := by
  intro n
  induction n with
  | zero =>
    intro a l b hl h
    have hnil : l = [] := List.length_eq_zero.mp (Nat.le_zero.mp hl)
    subst hnil
    exact ⟨[], h, List.nodup_nil, by simp, by simp⟩
  | succ n ih =>
    intro a l b hl h
    by_cases hmem : a ∈ l
    · obtain ⟨l1, l2, rfl⟩ := List.append_of_mem hmem
      have h2 := chainTo_decomp l1 a a l2 b h
      have hlen : l2.length ≤ n := by
        simp only [List.length_append, List.length_cons] at hl
        omega
      obtain ⟨l', h', nd, na, sub⟩ := ih a l2 b hlen h2
      refine ⟨l', h', nd, na, fun x hx => ?_⟩
      have hx2 := sub hx
      simp only [List.mem_append, List.mem_cons]
      exact Or.inr (Or.inr hx2)
    · cases l with
      | nil => exact ⟨[], h, List.nodup_nil, by simp, by simp⟩
      | cons s rest =>
        simp only [chainTo, Bool.and_eq_true] at h
        obtain ⟨⟨h1, h2⟩, h3⟩ := h
        have hlen : rest.length ≤ n := by
          simp only [List.length_cons] at hl
          omega
        obtain ⟨l', h', nd, ns, sub⟩ := ih s rest b hlen h3
        have hane : a ≠ s := fun he => hmem (he ▸ List.mem_cons_self s rest)
        refine ⟨s :: l', ?_, ?_, ?_, ?_⟩
        · simp only [chainTo, Bool.and_eq_true]
          exact ⟨⟨h1, h2⟩, h'⟩
        · exact List.nodup_cons.mpr ⟨ns, nd⟩
        · intro hx
          rcases List.mem_cons.mp hx with he | hx'
          · exact hane he
          · exact hmem (List.mem_cons_of_mem s (sub hx'))
        · intro x hx
          rcases List.mem_cons.mp hx with he | hx'
          · exact he ▸ List.mem_cons_self s rest
          · exact List.mem_cons_of_mem s (sub hx')

/-- Fuel exceeding the chain length makes the fuelled search succeed. -/
theorem fuel_of_chainTo {g : ArchiveGraph} :
    ∀ (l : List Digest) (a b : Digest) (f : Nat), l.length < f →
      chainTo g a l b = true → canFindFuel g f a b = true := by
  intro l
  induction l with
  | nil =>
    intro a b f hf h
    have hab : a = b := by simpa [chainTo] using h
    cases f with
    | zero => omega
    | succ f => simp [canFindFuel, hab]
  | cons s rest ih =>
    intro a b f hf horig
    have hb : (g.get b).isSome = true := chainTo_reg_last (s :: rest) a b horig (by simp)
    simp only [chainTo, Bool.and_eq_true] at horig
    obtain ⟨⟨h1, h2⟩, h3⟩ := horig
    cases f with
    | zero => omega
    | succ f =>
      by_cases hab : a = b
      · simp [canFindFuel, hab]
      · simp only [canFindFuel, if_neg hab]
        cases hga : g.get a with
        | none => rw [hga] at h1; simp at h1
        | some subs =>
          cases hgb : g.get b with
          | none => rw [hgb] at hb; simp at hb
          | some bs =>
            simp only [List.any_eq_true]
            refine ⟨s, ?_, ?_⟩
            · rw [hga] at h1
              exact List.mem_of_elem_eq_true h1
            · cases hgs : g.get s with
              | none => rw [hgs] at h2; simp at h2
              | some ss =>
                have hrec : canFindFuel g f s b = true := by
                  apply ih s b f ?_ h3
                  simp only [List.length_cons] at hf
                  omega
                rw [hrec]

/-- The `#nodes + 1` fuel of `archive_can_find` is always sufficient: the
function decides exactly the registered-chain relation `CanFind`. -/
theorem canFind_iff (g : ArchiveGraph) (a b : Digest) :
    CanFind g a b ↔ g.archive_can_find a b = true := by
  constructor
  · intro h
    obtain ⟨l, hl⟩ := chain_of_canFind h
    obtain ⟨l', h', nd, _, _⟩ := chainTo_shorten l.length a l b le_rfl hl
    have hkeys : ∀ x ∈ l', x ∈ g.archives.map Prod.fst := by
      intro x hx
      have hreg := chainTo_all_reg l' a b h' x hx
      cases hgx : g.get x with
      | none => rw [hgx] at hreg; simp at hreg
      | some v => exact alGet_mem_keys g.archives x v hgx
    have hlen : l'.length ≤ g.archives.length := by
      have hle := (List.subperm_of_subset nd hkeys).length_le
      simpa using hle
    exact fuel_of_chainTo l' a b (g.archives.length + 1) (by omega) h'
  · exact canFind_of_fuel g (g.archives.length + 1) a b

/-- C6 counterexample: register `[0]` and add the edge `[0] → [1]` while
`[1]` stays unregistered (`add_edge` never registers `to`).  Then `to = [0]`
*can* already reach `from = [1]` over the current edge set, so the claim
demands `CycleDetected` — but `archive_can_find` answers false for an
unregistered destination, and `add_edge([1], [0])` returns `KeyMissing`. -/
theorem dag_add_edge_cx :
    ReachP (((ArchiveGraph.new.insert [0]).add_edge [0] [1]).2) [0] [1]
    ∧ ((((ArchiveGraph.new.insert [0]).add_edge [0] [1]).2).add_edge [1] [0]).1
        = .keyMissing [1] := by
  constructor
  · exact Relation.ReflTransGen.single ⟨[[1]], by decide, by decide⟩
  · decide

/-- C6 amended: `add_edge(from, to)` returns `CycleDetected` and leaves the
graph unchanged exactly when `to` can find `from` through the
registered-chain relation (`to = from`, or a nonempty edge chain whose
source, intermediate nodes and destination are all registered); otherwise
`KeyMissing(from)` with the graph unchanged when `from` is unregistered;
otherwise it appends `to` to `from`'s out-edge list and returns `Ok`. -/
theorem dag_add_edge_spec (g : ArchiveGraph) (a b : Digest) :
    ((g.add_edge a b).1 = .cycleDetected ↔ CanFind g b a)
    ∧ ((g.add_edge a b).1 = .cycleDetected → (g.add_edge a b).2 = g)
    ∧ (¬ CanFind g b a → g.get a = none → g.add_edge a b = (.keyMissing a, g))
    ∧ (∀ subs, ¬ CanFind g b a → g.get a = some subs →
        g.add_edge a b = (.ok, ⟨alSet g.archives a (subs ++ [b])⟩)) := by
  unfold ArchiveGraph.add_edge
  by_cases hc : g.archive_can_find b a = true
  · rw [if_pos hc]
    exact ⟨⟨fun _ => (canFind_iff g b a).mpr hc, fun _ => rfl⟩, fun _ => rfl,
      fun hnc _ => absurd ((canFind_iff g b a).mpr hc) hnc,
      fun _ hnc _ => absurd ((canFind_iff g b a).mpr hc) hnc⟩
  · rw [if_neg hc]
    have hnc : ¬ CanFind g b a := fun hcf => hc ((canFind_iff g b a).mp hcf)
    cases hga : g.get a with
    | none =>
      refine ⟨⟨fun he => ?_, fun he => absurd he hnc⟩, fun he => ?_, fun _ _ => rfl, ?_⟩
      · simp at he
      · simp at he
      · intro subs _ hsome
        simp at hsome
    | some subs =>
      refine ⟨⟨fun he => ?_, fun he => absurd he hnc⟩, fun he => ?_, fun _ hg => ?_, ?_⟩
      · simp at he
      · simp at he
      · simp at hg
      · intro subs' _ hsome
        have he : subs = subs' := by injection hsome
        subst he
        rfl

/-- Witness for the amended C6: on a graph with only `[0]` registered,
adding the edge `[0] → [1]` succeeds and stores it. -/
theorem dag_add_edge_spec_w :
    (ArchiveGraph.new.insert [0]).add_edge [0] [1]
      = (.ok, ⟨[([0], [[1]])]⟩) := by
  have hnc : ¬ CanFind (ArchiveGraph.new.insert [0]) [1] [0] := fun hcf =>
    absurd ((canFind_iff (ArchiveGraph.new.insert [0]) [1] [0]).mp hcf) (by decide)
  have h := (dag_add_edge_spec (ArchiveGraph.new.insert [0]) [0] [1]).2.2.2 [] hnc (by decide)
  rw [h]
  decide

/-! Preservation of acyclicity under the two mutating operations. -/

theorem EdgeP_insert {g : ArchiveGraph} {d x y : Digest} (h : EdgeP (g.insert d) x y) :
    EdgeP g x y := by
  obtain ⟨subs, hget, hmem⟩ := h
  by_cases hxd : x = d
  · subst hxd
    rw [show (g.insert x).get x = some [] from alGet_set_self _ _ _] at hget
    injection hget with he
    subst he
    simp at hmem
  · rw [show (g.insert d).get x = g.get x from alGet_set_ne _ _ _ _ hxd] at hget
    exact ⟨subs, hget, hmem⟩

theorem acyclic_insert {g : ArchiveGraph} (h : Acyclic g) (d : Digest) :
    Acyclic (g.insert d) := by
  intro a ha
  exact h a (Relation.TransGen.mono (fun x y hxy => EdgeP_insert hxy) ha)

theorem EdgeP_addedge {g : ArchiveGraph} {a0 b0 : Digest} {subs : List Digest}
    (hga : g.get a0 = some subs) {x y : Digest}
    (h : EdgeP ⟨alSet g.archives a0 (subs ++ [b0])⟩ x y) :
    EdgeP g x y ∨ (x = a0 ∧ y = b0) := by
  obtain ⟨s', hget, hmem⟩ := h
  by_cases hxa : x = a0
  · subst hxa
    rw [show (⟨alSet g.archives x (subs ++ [b0])⟩ : ArchiveGraph).get x
          = some (subs ++ [b0]) from alGet_set_self _ _ _] at hget
    injection hget with he
    subst he
    rcases List.mem_append.mp hmem with hm | hm
    · exact Or.inl ⟨subs, hga, hm⟩
    · simp only [List.mem_singleton] at hm
      exact Or.inr ⟨rfl, hm⟩
  · rw [show (⟨alSet g.archives a0 (subs ++ [b0])⟩ : ArchiveGraph).get x
          = g.get x from alGet_set_ne _ _ _ _ hxa] at hget
    exact Or.inl ⟨s', hget, hmem⟩

theorem reach_addedge {g : ArchiveGraph} {a0 b0 : Digest} {subs : List Digest}
    (hga : g.get a0 = some subs) {u v : Digest}
    (h : Relation.ReflTransGen (EdgeP ⟨alSet g.archives a0 (subs ++ [b0])⟩) u v) :
    ReachP g u v ∨ (ReachP g u a0 ∧ ReachP g b0 v) := by
  induction h with
  | refl => exact Or.inl Relation.ReflTransGen.refl
  | tail hsteps hlast ih =>
    rcases EdgeP_addedge hga hlast with hold | ⟨he1, he2⟩
    · rcases ih with h1 | ⟨h1, h2⟩
      · exact Or.inl (h1.tail hold)
      · exact Or.inr ⟨h1, h2.tail hold⟩
    · subst he1
      subst he2
      rcases ih with h1 | ⟨h1, _⟩
      · exact Or.inr ⟨h1, Relation.ReflTransGen.refl⟩
      · exact Or.inr ⟨h1, Relation.ReflTransGen.refl⟩

/-- Plain reachability to a registered node is a registered chain: every
node with an out-edge is registered, so only the destination's registration
needs to be supplied. -/
theorem canFind_of_reach {g : ArchiveGraph} {u v : Digest}
    (h : ReachP g u v) (hv : (g.get v).isSome = true) : CanFind g u v := by
  induction h using Relation.ReflTransGen.head_induction_on with
  | refl => exact CanFind.refl v
  | head hstep _ ih =>
    rename_i x y hrest
    obtain ⟨subs, hgx, hmem⟩ := hstep
    have hyreg : (g.get y).isSome = true := by
      cases ih with
      | refl => exact hv
      | step hga _ _ _ _ => simp [hga]
    exact CanFind.step hgx hmem hyreg hv ih

theorem acyclic_addedge {g : ArchiveGraph} (hacy : Acyclic g) {a0 b0 : Digest}
    {subs : List Digest} (hga : g.get a0 = some subs) (hnc : ¬ CanFind g b0 a0) :
    Acyclic ⟨alSet g.archives a0 (subs ++ [b0])⟩ := by
  intro x hx
  obtain ⟨y, hxy, hyx⟩ := (Relation.TransGen.head'_iff).mp hx
  have hreach0 : ¬ ReachP g b0 a0 := fun hr =>
    hnc (canFind_of_reach hr (by simp [hga]))
  rcases EdgeP_addedge hga hxy with hold | ⟨he1, he2⟩
  · rcases reach_addedge hga hyx with h1 | ⟨h1, h2⟩
    · exact hacy x (Relation.TransGen.head' hold h1)
    · exact hreach0 ((h2.tail hold).trans h1)
  · subst he1
    subst he2
    rcases reach_addedge hga hyx with h1 | ⟨h1, _⟩
    · exact hreach0 h1
    · exact hreach0 h1

/-- An operation on the DAG: `insert(d)` or `add_edge(a, b)`. -/
inductive DagOp where
  | ins (d : Digest)
  | edge (a b : Digest)

/-- Apply one DAG operation (`add_edge` keeps the returned graph). -/
def applyDagOp (g : ArchiveGraph) : DagOp → ArchiveGraph
  | .ins d => g.insert d
  | .edge a b => (g.add_edge a b).2

theorem acyclic_applyDagOp {g : ArchiveGraph} (h : Acyclic g) (op : DagOp) :
    Acyclic (applyDagOp g op) := by
  cases op with
  | ins d => exact acyclic_insert h d
  | edge a b =>
    simp only [applyDagOp, ArchiveGraph.add_edge]
    by_cases hc : g.archive_can_find b a = true
    · rw [if_pos hc]
      exact h
    · rw [if_neg hc]
      cases hga : g.get a with
      | none => exact h
      | some subs =>
        exact acyclic_addedge h hga (fun hcf => hc ((canFind_iff g b a).mp hcf))

/-- C7: starting from the empty `ArchiveGraph`, after every finite sequence
of `insert` and `add_edge` operations the edge relation remains acyclic: no
digest reaches itself through one or more edges. -/
theorem dag_always_acyclic (ops : List DagOp) :
    Acyclic (ops.foldl applyDagOp ArchiveGraph.new) := by
  have hbase : Acyclic ArchiveGraph.new := by
    intro a ha
    obtain ⟨y, hxy, _⟩ := (Relation.TransGen.head'_iff).mp ha
    obtain ⟨subs, hget, _⟩ := hxy
    simp [ArchiveGraph.new, ArchiveGraph.get, alGet] at hget
  have hstep : ∀ (l : List DagOp) (g : ArchiveGraph),
      Acyclic g → Acyclic (l.foldl applyDagOp g) := by
    intro l
    induction l with
    | nil => intro g hg; exact hg
    | cons op l ih => intro g hg; exact ih _ (acyclic_applyDagOp hg op)
  exact hstep ops _ hbase

/-! ### The extraction traversal (`src/main/process/process_extract/mod.rs`)

The filesystem is modelled as trees of named entries; `stat` always
succeeds (the tree is the filesystem), file reads (`get_sha256`,
`File::new`, `Archive::new`) succeed with the content stored in the tree,
and temp-directory creation succeeds.  The external extractor is an oracle
answering per call; `TempDir` release is modelled both at explicit
`close()` sites and at early exits, where Rust runs the `Drop`
implementation during unwinding/propagation. -/

/-- `ExtractPolicy` (`src/main/process/mod.rs`). -/
inductive ExtractPolicy where
  | extension
  | all
  | none
deriving DecidableEq

/-- A filesystem tree handed to the traversal; `other` is an irregular
entry (socket, dangling symlink, …). -/
inductive FsTree where
  | file (name : String) (content : List Nat)
  | dir (name : String) (entries : List FsTree)
  | other (name : String)

/-- `File` record of `src/lib/archive_tree/mod.rs`. -/
structure FileRec where
  name : String
  size : Nat
  sha256 : Digest
deriving DecidableEq

mutual
/-- `Archive` record: name, size, the archive's own bytes' SHA-256, and the
path-keyed `files` / `archives` maps.  `HashMap`s are modelled as
insertion-ordered association lists (iteration order is immaterial to the
final code, which sorts the digest multiset); the nested archive map is the
bespoke list type `ArchList` so that recursion over records stays
structural. -/

inductive ArchiveRec where
  | mk (name : String) (size : Nat) (sha256 : Digest)
      (files : List (FsPath × FileRec)) (archives : ArchList)

/-- An insertion-ordered association list from path to `ArchiveRec`. -/
inductive ArchList where
  | nil
  | cons (path : FsPath) (a : ArchiveRec) (rest : ArchList)
end

/-- `HashMap::insert` on the nested archive map: replace or append. -/
def ArchList.set : ArchList → FsPath → ArchiveRec → ArchList
  | .nil, k, v => .cons k v .nil
  | .cons p a rest, k, v => if p = k then .cons k v rest else .cons p a (ArchList.set rest k v)

/-- `Directory` record. -/
structure DirectoryRec where
  directory : FsPath
  files : List (FsPath × FileRec)
  archives : ArchList

/-- `Collection` of `archive_tree/mod.rs`. -/
inductive Collection where
  | file (f : FileRec)
  | archive (a : ArchiveRec)
  | directory (d : DirectoryRec)
  | empty

/-- `HashMap::insert` on a path-keyed map: replace or append. -/
def mapSet {α : Type} : List (FsPath × α) → FsPath → α → List (FsPath × α)
  | [], k, v => [(k, v)]
  | e :: rest, k, v => if e.1 = k then (k, v) :: rest else e :: mapSet rest k v

/-- Outcome of one extractor call (`compress_tools`): success with the
extracted entries, an `Error::Io`, or a non-I/O (format-class) error. -/
inductive ExtractOut where
  | ok (entries : List FsTree)
  | ioErr
  | formatErr

/-- The external `ArchiveExtractor` collaborator: the result of its `i`-th
call on the given archive content.  Its contract promises only
success / `Io` / format-class failure per call; determinism across calls is
not part of the contract, so the oracle may depend on the call index. -/
structure Env where
  extract : Nat → List Nat → ExtractOut

/-- Ambient state threaded through a run: the cycle DAG, the number of temp
directories created (`TempDir::new`) and released (explicit `close()` or
`Drop`), and the number of extractor calls made. -/
structure St where
  graph : ArchiveGraph
  tmpMade : Nat
  tmpFreed : Nat
  calls : Nat

/-- Fresh state at the start of a `calculate_fvc` invocation. -/
def St.init : St := ⟨ArchiveGraph.new, 0, 0, 0⟩

/-- Extraction error classes distinguished by the traversal. -/
inductive ExtractErr where
  | io
  | format

/-- `open_archive`: create a uniquely named temp directory and extract the
archive into it.  On an extractor error the temp directory is closed here
and the error is returned; on success it stays live for the caller. -/
def openArchive (env : Env) (st : St) (content : List Nat) :
    St × Except ExtractErr (List FsTree) :=
  let st1 : St := { st with tmpMade := st.tmpMade + 1 }
  let out := env.extract st1.calls content
  let st2 : St := { st1 with calls := st1.calls + 1 }
  match out with
  | .ok entries => (st2, .ok entries)
  | .ioErr => ({ st2 with tmpFreed := st2.tmpFreed + 1 }, .error .io)
  | .formatErr => ({ st2 with tmpFreed := st2.tmpFreed + 1 }, .error .format)

/-- `File::new(path, None, None)`: basename, size from metadata, SHA-256 of
the content (all infallible in the model). -/
def FileRec.ofPath (path : FsPath) (content : List Nat) : FileRec :=
  ⟨path.getLastD "", content.length, FVC.sha256 content⟩

/-- `Archive::new(path, None, Some(sha256))`: basename, size from
metadata, the supplied digest, empty maps. -/
def ArchiveRec.ofPath (path : FsPath) (content : List Nat) (d : Digest) : ArchiveRec :=
  .mk (path.getLastD "") content.length d [] .nil

/-- The `match collection` block filling an archive record after the
recursive call: a `File`/`Archive` result is inserted keyed by the archive's
own path; a `Directory` result's maps are lifted wholesale; `Empty` adds
nothing. -/
def ArchiveRec.absorb (a : ArchiveRec) (path : FsPath) : Collection → ArchiveRec
  | .file f => match a with
    | .mk n s d fs as => .mk n s d (mapSet fs path f) as
  | .archive sub => match a with
    | .mk n s d fs as => .mk n s d fs (as.set path sub)
  | .directory dir => match a with
    | .mk n s d _ _ => .mk n s d dir.files dir.archives
  | .empty => a

/-- The temp directory's path component
(`fvc_extracted_archive.<file_name>`; the unique random suffix is
immaterial in the model). -/
def tmpDirName (path : FsPath) : String :=
  "fvc_extracted_archive." ++ path.getLastD ""

mutual
/-- The regular files `WalkDir` yields under a tree, with their paths, in
traversal order. -/
def filesOf : FsPath → FsTree → List (FsPath × List Nat)
  | base, .file n c => [(base ++ [n], c)]
  | base, .dir n es => filesOfList (base ++ [n]) es
  | _, .other _ => []

/-- `filesOf` over a directory's entry list. -/
def filesOfList : FsPath → List FsTree → List (FsPath × List Nat)
  | _, [] => []
  | base, t :: ts => filesOf base t ++ filesOfList base ts
end

mutual
/-- All paths present in a tree (for the classifier's `exists()` probe). -/
def treePaths : FsPath → FsTree → List FsPath
  | base, .file n _ => [base ++ [n]]
  | base, .dir n es => (base ++ [n]) :: treePathsList (base ++ [n]) es
  | base, .other n => [base ++ [n]]

/-- `treePaths` over a directory's entry list. -/
def treePathsList : FsPath → List FsTree → List FsPath
  | _, [] => []
  | base, t :: ts => treePaths base t ++ treePathsList base ts
end

/-- Result of one traversal step: a collection (for file/tree jobs), a
directory record (for walk jobs), a fatal I/O error, a Rust `panic!`, or
exhaustion of the model's recursion fuel (propagated by callers exactly
like an error; any terminating Rust run is reproduced by a large enough
fuel). -/
inductive PRes where
  | col (c : Collection)
  | dirRec (d : DirectoryRec)
  | ioErr
  | panicked
  | outOfFuel

/-- One pending traversal obligation: `extract_or_process_file` on a
regular file, `calculate_fvc_of` on a tree node, or the `WalkDir` loop over
a directory's regular files.  `fs` is the list of paths visible to the
classifier's sibling probe. -/
inductive Job where
  | file (fs : List FsPath) (current : Option Digest) (path : FsPath) (content : List Nat)
  | tree (fs : List FsPath) (current : Option Digest) (base : FsPath) (t : FsTree)
  | walk (fs : List FsPath) (current : Option Digest)
      (files : List (FsPath × List Nat)) (acc : DirectoryRec)

/-- The traversal engine of `ExtractionProcessor`, as one function over the
three job kinds, recursing on explicit fuel (each nested call consumes one
unit).

* `.file` is `extract_or_process_file(graph, current, file_path)`: under
  policy `None`, immediately a `File` record.  Otherwise compute the
  file's SHA-256 and match `(known_archive, current)`: a known archive
  inside another archive first consults `add_edge` (cycle ⇒ `Empty`;
  missing key ⇒ `panic!`); a known archive is then extracted by the
  `known` block, where a non-I/O extractor error is
  `panic!("archive error for known archive")`.  An unknown file runs the
  `match (extract_policy, is_extractable(path))` block: `(Extension, 0)`
  falls to the `File::new` leaf fallback; the `(_, 100)` and `(_, _)` arms
  both attempt extraction and coincide in the model (they differ only in
  logging and in when the infallible `Archive::new` runs), with a non-I/O
  extraction error falling through to the leaf fallback.
* `.tree` is `calculate_fvc_of`: dispatch on the stat of the node; a
  directory is walked (`WalkDir` yields its regular files, recursively)
  into one `Directory` record; irregular entries are skipped as `Empty`.
* `.walk` is the `for entry in WalkDir::new(..)` loop: each regular file is
  processed and inserted into the directory record (a `Directory` result
  for a file would be a `panic!`).

Successful extraction recursions return through a `close()` of the temp
directory (`tmpFreed`); error propagation out of the frame releases it via
Rust's `Drop` during unwinding, modelled the same way.

`runJobStep` is one layer of the engine, with `recur` as the recursive
entry; `runJob` ties the knot, consuming one unit of fuel per layer. -/
def runJobStep (env : Env) (pol : ExtractPolicy)
    (recur : St → Job → St × PRes) (st : St) (job : Job) : St × PRes :=
  match job with
  | .file fs current path content =>
    match pol with
    | .none => (st, .col (.file (FileRec.ofPath path content)))
    | _ =>
      let d := sha256 content
      let known := fun (st : St) =>
        let archive := ArchiveRec.ofPath path content d
        match openArchive env st content with
        | (st1, .error .io) => (st1, PRes.ioErr)
        | (st1, .error .format) => (st1, PRes.panicked)
        | (st1, .ok entries) =>
          let extracted := FsTree.dir (tmpDirName path) entries
          match recur st1 (.tree (treePaths [] extracted) (some d) [] extracted) with
          | (st2, .col c) =>
            ({ st2 with tmpFreed := st2.tmpFreed + 1 }, PRes.col (.archive (archive.absorb path c)))
          | (st2, r) => ({ st2 with tmpFreed := st2.tmpFreed + 1 }, r)
      let unknown := fun (st : St) =>
        if pol = .extension ∧ is_extractable fs path = 0 then
          (st, PRes.col (.file (FileRec.ofPath path content)))
        else
          let archive := ArchiveRec.ofPath path content d
          match openArchive env st content with
          | (st1, .error .io) => (st1, PRes.ioErr)
          | (st1, .error .format) => (st1, PRes.col (.file (FileRec.ofPath path content)))
          | (st1, .ok entries) =>
            let st2 : St := { st1 with graph := st1.graph.insert d }
            let extracted := FsTree.dir (tmpDirName path) entries
            match recur st2 (.tree (treePaths [] extracted) (some d) [] extracted) with
            | (st3, .col c) =>
              ({ st3 with tmpFreed := st3.tmpFreed + 1 }, PRes.col (.archive (archive.absorb path c)))
            | (st3, r) => ({ st3 with tmpFreed := st3.tmpFreed + 1 }, r)
      match st.graph.containsB d, current with
      | true, some cur =>
        match st.graph.add_edge cur d with
        | (.cycleDetected, g') => ({ st with graph := g' }, .col .empty)
        | (.keyMissing _, g') => ({ st with graph := g' }, .panicked)
        | (.ok, g') => known { st with graph := g' }
      | true, none => known st
      | false, _ => unknown st
  | .tree fs current base t =>
    match t with
    | .file name content => recur st (.file fs current (base ++ [name]) content)
    | .dir name entries =>
      match recur st (.walk fs current (filesOf base (.dir name entries)) ⟨base ++ [name], [], .nil⟩) with
      | (st1, .dirRec drec) => (st1, .col (.directory drec))
      | (st1, r) => (st1, r)
    | .other _ => (st, .col .empty)
  | .walk fs current files acc =>
    match files with
    | [] => (st, .dirRec acc)
    | (p, c) :: rest =>
      match recur st (.file fs current p c) with
      | (st1, .col (.file f)) =>
        recur st1 (.walk fs current rest ⟨acc.directory, mapSet acc.files p f, acc.archives⟩)
      | (st1, .col (.archive a)) =>
        recur st1 (.walk fs current rest ⟨acc.directory, acc.files, acc.archives.set p a⟩)
      | (st1, .col (.directory _)) => (st1, .panicked)
      | (st1, .col .empty) => recur st1 (.walk fs current rest acc)
      | (st1, r) => (st1, r)

/-- The traversal engine's fuelled fixpoint. -/
def runJob (env : Env) (pol : ExtractPolicy) : Nat → St → Job → St × PRes
  | 0, st, _ => (st, .outOfFuel)
  | fuel + 1, st, job => runJobStep env pol (runJob env pol fuel) st job

/-- `ExtractionProcessor::extract_or_process_file`. -/
def extractOrProcessFile (env : Env) (pol : ExtractPolicy) (fuel : Nat) (st : St)
    (fs : List FsPath) (current : Option Digest) (path : FsPath) (content : List Nat) :
    St × PRes :=
  runJob env pol fuel st (.file fs current path content)

/-- `ExtractionProcessor::calculate_fvc_of`. -/
def calcFvcOf (env : Env) (pol : ExtractPolicy) (fuel : Nat) (st : St)
    (fs : List FsPath) (current : Option Digest) (base : FsPath) (t : FsTree) :
    St × PRes :=
  runJob env pol fuel st (.tree fs current base t)

/-- The `WalkDir` loop of `calculate_fvc_of`'s directory branch. -/
def processWalk (env : Env) (pol : ExtractPolicy) (fuel : Nat) (st : St)
    (fs : List FsPath) (current : Option Digest)
    (files : List (FsPath × List Nat)) (acc : DirectoryRec) : St × PRes :=
  runJob env pol fuel st (.walk fs current files acc)

mutual
/-- `hash_collection` on an archive record: its files' digests then,
recursively, its sub-archives' — the archive's own `sha256` is never fed. -/
def hashArchive : ArchiveRec → List Digest
  | .mk _ _ _ fs as => fs.map (fun e => e.2.sha256) ++ hashArchList as

def hashArchList : ArchList → List Digest
  | .nil => []
  | .cons _ a rest => hashArchive a ++ hashArchList rest
end

/-- `ExtractionProcessor::hash_collection`: the digests fed to the hasher
via `read_sha256`, in iteration order. -/
def hashCollection : Collection → List Digest
  | .empty => []
  | .file f => [f.sha256]
  | .archive a => hashArchive a
  | .directory dr => dr.files.map (fun e => e.2.sha256) ++ hashArchList dr.archives

/-- Result of a whole `calculate_fvc` invocation. -/
inductive RunRes where
  | ok (cs : List Collection)
  | ioErr
  | panicked
  | outOfFuel

/-- Whether the run aborted through a Rust `panic!`. -/
def RunRes.isPanicked : RunRes → Bool
  | .panicked => true
  | _ => false

/-- The digest multiset (as a list, in feed order) that a successful run
hands to the `FVC2Hasher`. -/
def RunRes.digests : RunRes → Option (List Digest)
  | .ok cs => some ((cs.map hashCollection).flatten)
  | _ => none

/-- The per-input loop of `ExtractionProcessor::calculate_fvc`: each input
path is processed against a freshly created `ArchiveGraph::new()`; the
ambient counters persist across inputs; the first error aborts the loop. -/
def calcList (env : Env) (pol : ExtractPolicy) (fuel : Nat) :
    St → List FsTree → St × RunRes
  | st, [] => (st, .ok [])
  | st, t :: ts =>
    match calcFvcOf env pol fuel { st with graph := ArchiveGraph.new } (treePaths [] t) none [] t with
    | (st1, .col c) =>
      match calcList env pol fuel st1 ts with
      | (st2, .ok cs) => (st2, .ok (c :: cs))
      | (st2, .ioErr) => (st2, .ioErr)
      | (st2, .panicked) => (st2, .panicked)
      | (st2, .outOfFuel) => (st2, .outOfFuel)
    | (st1, .dirRec _) => (st1, .panicked)
    | (st1, .ioErr) => (st1, .ioErr)
    | (st1, .panicked) => (st1, .panicked)
    | (st1, .outOfFuel) => (st1, .outOfFuel)

/-- `ExtractionProcessor::calculate_fvc` from a fresh state: the final
ambient state and the collections produced (feeding them to the hasher is
`RunRes.digests`). -/
def calculate_fvc (env : Env) (pol : ExtractPolicy) (fuel : Nat)
    (inputs : List FsTree) : St × RunRes :=
  calcList env pol fuel St.init inputs

theorem attach_map_fst {α β : Type _} (l : List α) (f : α → β) :
    l.attach.map (fun e => f e.1) = l.map f :=
  List.attach_map_coe l f

/-- `add_edge(d, d)` always reports the identity cycle. -/
theorem add_edge_self (g : ArchiveGraph) (d : Digest) :
    g.add_edge d d = (.cycleDetected, g) := by
  unfold ArchiveGraph.add_edge
  rw [if_pos]
  unfold ArchiveGraph.archive_can_find
  simp [canFindFuel]

theorem containsB_new_insert_self (d : Digest) :
    (ArchiveGraph.new.insert d).containsB d = true := by
  simp [ArchiveGraph.containsB, ArchiveGraph.get, ArchiveGraph.insert, ArchiveGraph.new,
    alGet, alSet]

theorem containsB_new_insert_ne (d k : Digest) (h : k ≠ d) :
    (ArchiveGraph.new.insert d).containsB k = false := by
  have hd : ¬ d = k := fun he => h he.symm
  simp [ArchiveGraph.containsB, ArchiveGraph.get, ArchiveGraph.insert, ArchiveGraph.new,
    alGet, alSet, hd]

theorem containsB_new (k : Digest) : ArchiveGraph.new.containsB k = false := by
  simp [ArchiveGraph.containsB, ArchiveGraph.get, ArchiveGraph.new, alGet]

theorem filesOfList_eq (base : FsPath) (es : List FsTree) :
    filesOfList base es = (es.map (filesOf base)).flatten := by
  induction es with
  | nil => rfl
  | cons t ts ih => simp [filesOfList, ih]

theorem filesOf_dir (base : FsPath) (n : String) (es : List FsTree) :
    filesOf base (.dir n es) = (es.map (filesOf (base ++ [n]))).flatten := by
  rw [show filesOf base (.dir n es) = filesOfList (base ++ [n]) es from rfl, filesOfList_eq]

theorem filesOf_files (b : FsPath) (items : List (String × List Nat)) :
    ((items.map (fun s => FsTree.file s.1 s.2)).map (filesOf b)).flatten
      = items.map (fun s => (b ++ [s.1], s.2)) := by
  induction items with
  | nil => rfl
  | cons x xs ih => simp only [List.map_cons, List.flatten_cons, ih, filesOf, List.singleton_append]

theorem mapSet_eq_append {α : Type _} (m : List (FsPath × α)) (k : FsPath) (v : α)
    (h : ∀ e ∈ m, e.1 ≠ k) : mapSet m k v = m ++ [(k, v)] := by
  induction m with
  | nil => rfl
  | cons e rest ih =>
    have hek : ¬ e.1 = k := h e (List.mem_cons_self e rest)
    simp only [mapSet, if_neg hek, List.cons_append]
    rw [ih (fun x hx => h x (List.mem_cons_of_mem e hx))]

theorem foldl_mapSet_eq_append (items : List (FsPath × List Nat)) :
    ∀ acc : List (FsPath × FileRec),
      (items.map Prod.fst).Nodup → (∀ e ∈ acc, e.1 ∉ items.map Prod.fst) →
      items.foldl (fun m e => mapSet m e.1 (FileRec.ofPath e.1 e.2)) acc
        = acc ++ items.map (fun e => (e.1, FileRec.ofPath e.1 e.2)) := by
  induction items with
  | nil => intro acc _ _; simp
  | cons x xs ih =>
    intro acc hnd hacc
    simp only [List.foldl_cons]
    rw [mapSet_eq_append acc x.1 _ ?_]
    · rw [ih (acc ++ [(x.1, FileRec.ofPath x.1 x.2)]) ?_ ?_]
      · simp
      · exact (List.nodup_cons.mp (by simpa using hnd)).2
      · intro e he
        rcases List.mem_append.mp he with h1 | h2
        · intro hk
          exact hacc e h1 (List.mem_cons_of_mem _ hk)
        · simp only [List.mem_singleton] at h2
          subst h2
          simp only [List.map_cons] at hnd
          intro hk
          exact (List.nodup_cons.mp hnd).1 hk
    · intro e he hk
      exact hacc e he (hk ▸ List.mem_cons_self x.1 (xs.map Prod.fst))

/-- Under policy `Extension`, a file that classifies 0 and whose digest is
unknown to the DAG is recorded as a leaf `File` record, with the ambient
state untouched. -/
theorem extract_leaf (env : Env) (fs : List FsPath) (current : Option Digest)
    (path : FsPath) (content : List Nat) (st : St) (fuel : Nat)
    (hscore : is_extractable fs path = 0)
    (hunk : st.graph.containsB (sha256 content) = false) :
    extractOrProcessFile env .extension (fuel + 1) st fs current path content
      = (st, .col (.file (FileRec.ofPath path content))) := by
  simp only [extractOrProcessFile, runJob, runJobStep, hunk]
  simp [hscore]

/-- Under policy `Extension`, walking files that classify 0 and whose
digests are unknown to the DAG records them as leaf `File` records and
leaves the ambient state untouched. -/
theorem processWalk_leaf (env : Env) (fs : List FsPath) (current : Option Digest) :
    ∀ (files : List (FsPath × List Nat)) (fuel : Nat) (st : St) (acc : DirectoryRec),
      files.length + 1 ≤ fuel →
      (∀ e ∈ files, is_extractable fs e.1 = 0) →
      (∀ e ∈ files, st.graph.containsB (sha256 e.2) = false) →
      processWalk env .extension fuel st fs current files acc
        = (st, .dirRec ⟨acc.directory,
            files.foldl (fun m e => mapSet m e.1 (FileRec.ofPath e.1 e.2)) acc.files,
            acc.archives⟩) := by
  intro files
  induction files with
  | nil =>
    intro fuel st acc hf _ _
    obtain ⟨f, rfl⟩ : ∃ f, fuel = f + 1 := ⟨fuel - 1, by omega⟩
    simp [processWalk, runJob, runJobStep]
  | cons e rest ih =>
    intro fuel st acc hfuel hscore hunk
    rw [List.length_cons] at hfuel
    obtain ⟨f, rfl⟩ : ∃ f, fuel = f + 1 := ⟨fuel - 1, by omega⟩
    obtain ⟨k, rfl⟩ : ∃ k, f = k + 1 := ⟨f - 1, by omega⟩
    obtain ⟨p, c⟩ := e
    have hstep := extract_leaf env fs current p c st k
      (hscore (p, c) (List.mem_cons_self _ rest))
      (hunk (p, c) (List.mem_cons_self _ rest))
    simp only [extractOrProcessFile] at hstep
    simp only [processWalk] at ih ⊢
    have hlen : rest.length + 1 ≤ k + 1 := by omega
    rw [runJob]
    simp only [runJobStep]
    rw [hstep]
    dsimp only
    rw [ih (k + 1) st _ hlen
        (fun x hx => hscore x (List.mem_cons_of_mem _ hx))
        (fun x hx => hunk x (List.mem_cons_of_mem _ hx))]
    rfl

/-- A known archive encountered inside itself is skipped: the identity edge
is a cycle and the occurrence contributes `Empty`. -/
theorem extract_cycle_self (env : Env) (fuel : Nat) (st : St) (fs : List FsPath)
    (path : FsPath) (content : List Nat)
    (hknown : st.graph.containsB (sha256 content) = true) :
    runJob env .extension (fuel + 1) st (.file fs (some (sha256 content)) path content)
      = (st, .col .empty) := by
  simp only [runJob, runJobStep, hknown, add_edge_self]

/-- The extractor behaviour for a quine: extracting the archive bytes `c`
yields a file byte-identical to the archive plus the given sibling files;
nothing else is extractable. -/
def quineEnv (c : List Nat) (sibs : List (String × List Nat)) : Env :=
  ⟨fun _ content =>
    if content = c then .ok (.file "q.zip" c :: sibs.map (fun s => .file s.1 s.2))
    else .formatErr⟩

/-- The temp-directory tree produced by extracting the quine. -/
def quineExtracted (c : List Nat) (sibs : List (String × List Nat)) : FsTree :=
  .dir (tmpDirName ["q.zip"]) (.file "q.zip" c :: sibs.map (fun s => .file s.1 s.2))

set_option maxRecDepth 100000 in
/-- C3 counterexample: for the minimal quine — archive bytes `[7]` whose
extraction yields exactly one file byte-identical to itself — `calculate`
terminates, but the digest multiset fed to the hasher is *empty*: the
quine's own content digest appears zero times, not exactly once as the
claim states (the cycle occurrence returns `Empty`, and a successfully
extracted archive contributes only its leaves, never its own digest). -/
theorem quine_cx :
    (calculate_fvc (quineEnv [7] []) .extension 6 [.file "q.zip" [7]]).2.digests = some []
    ∧ ((calculate_fvc (quineEnv [7] []) .extension 6 [.file "q.zip" [7]]).2.digests.getD []).count
        (sha256 [7]) = 0 := by
  constructor
  · decide
  · decide

/-- C3 amended: for a quine input `q.zip` (with sibling files of distinct
content digests and non-archive-looking names), `calculate` terminates (at
bounded fuel) and the resulting FVC contains the sibling files' digests
exactly; the quine's own content digest is contributed *zero* times — the
cycle edge is rejected on the second encounter and that occurrence yields
`Empty`, while the outer, successfully extracted archive contributes only
its leaves. -/
theorem quine_run (c : List Nat) (sibs : List (String × List Nat))
    (h1 : ∀ s ∈ sibs, sha256 s.2 ≠ sha256 c)
    (h2 : ∀ s ∈ sibs,
      is_extractable (treePaths [] (quineExtracted c sibs)) [tmpDirName ["q.zip"], s.1] = 0)
    (h3 : (sibs.map Prod.fst).Nodup) :
    (calculate_fvc (quineEnv c sibs) .extension (sibs.length + 6) [.file "q.zip" c]).2.digests
        = some (sibs.map (fun s => sha256 s.2))
    ∧ ∀ l, (calculate_fvc (quineEnv c sibs) .extension (sibs.length + 6)
        [.file "q.zip" c]).2.digests = some l → l.count (sha256 c) = 0 := by
  have hmain : (calculate_fvc (quineEnv c sibs) .extension (sibs.length + 6)
      [.file "q.zip" c]).2.digests = some (sibs.map (fun s => sha256 s.2)) := by
    -- notation
    set d := sha256 c with hd
    set tmpn := tmpDirName ["q.zip"] with htmpn
    set fsx := treePaths [] (quineExtracted c sibs) with hfsx
    set st2 : St := ⟨ArchiveGraph.new.insert d, 1, 0, 1⟩ with hst2
    set sfiles := sibs.map (fun s => ([tmpn, s.1], s.2)) with hsfiles
    -- the walked file list of the extracted directory
    have hwalkfiles : filesOf [] (quineExtracted c sibs)
        = ([tmpn, "q.zip"], c) :: sfiles := by
      rw [quineExtracted, filesOf_dir]
      simp only [List.map_cons, List.flatten_cons, filesOf_files, hsfiles, htmpn]
      simp [filesOf]
    -- the walk: the inner quine copy is skipped, the siblings are leaves
    have hwalkrun : runJob (quineEnv c sibs) .extension (sibs.length + 3) st2
        (.walk fsx (some d) (([tmpn, "q.zip"], c) :: sfiles) ⟨[tmpn], [], .nil⟩)
        = (st2, .dirRec ⟨[tmpn],
            sibs.map (fun s => ([tmpn, s.1], FileRec.ofPath [tmpn, s.1] s.2)), .nil⟩) := by
      have hknown : st2.graph.containsB (sha256 c) = true := by
        rw [hst2]
        exact containsB_new_insert_self d
      rw [show sibs.length + 3 = (sibs.length + 2) + 1 from rfl, runJob]
      simp only [runJobStep]
      rw [show runJob (quineEnv c sibs) .extension (sibs.length + 2) st2
            (.file fsx (some d) [tmpn, "q.zip"] c) = (st2, .col .empty) from
          extract_cycle_self _ (sibs.length + 1) st2 fsx [tmpn, "q.zip"] c hknown]
      dsimp only
      have hwl := processWalk_leaf (quineEnv c sibs) fsx (some d) sfiles (sibs.length + 2)
        st2 ⟨[tmpn], [], .nil⟩ (by simp [hsfiles])
        (by
          intro e he
          rw [hsfiles] at he
          obtain ⟨s, hs, rfl⟩ := List.mem_map.mp he
          exact h2 s hs)
        (by
          intro e he
          rw [hsfiles] at he
          obtain ⟨s, hs, rfl⟩ := List.mem_map.mp he
          rw [hst2]
          exact containsB_new_insert_ne d _ (h1 s hs))
      simp only [processWalk] at hwl
      rw [hwl]
      have hkeysnd : (sfiles.map Prod.fst).Nodup := by
        rw [hsfiles, List.map_map]
        have : (Prod.fst ∘ fun s : String × List Nat => (([tmpn, s.1] : FsPath), s.2))
            = (fun x : String => ([tmpn, x] : FsPath)) ∘ Prod.fst := rfl
        rw [this, ← List.map_map]
        refine List.Nodup.map ?_ h3
        intro a b hab
        simpa using hab
      rw [foldl_mapSet_eq_append sfiles [] hkeysnd (by simp)]
      rw [hsfiles]
      simp [List.map_map, Function.comp]
    -- the recursion into the extracted directory
    have htree : runJob (quineEnv c sibs) .extension (sibs.length + 4) st2
        (.tree fsx (some d) [] (quineExtracted c sibs))
        = (st2, .col (.directory ⟨[tmpn],
            sibs.map (fun s => ([tmpn, s.1], FileRec.ofPath [tmpn, s.1] s.2)), .nil⟩)) := by
      rw [show sibs.length + 4 = (sibs.length + 3) + 1 from rfl, runJob]
      rw [show quineExtracted c sibs
            = FsTree.dir tmpn (.file "q.zip" c :: sibs.map (fun s => .file s.1 s.2)) from rfl]
      simp only [runJobStep]
      rw [show filesOf [] (FsTree.dir tmpn (.file "q.zip" c :: sibs.map (fun s => .file s.1 s.2)))
            = ([tmpn, "q.zip"], c) :: sfiles from hwalkfiles]
      rw [show ([] : FsPath) ++ [tmpn] = [tmpn] from rfl]
      rw [hwalkrun]
    -- the top-level file: unknown archive, classifier 100, extraction succeeds
    have hfile : runJob (quineEnv c sibs) .extension (sibs.length + 5) St.init
        (.file [["q.zip"]] none ["q.zip"] c)
        = (⟨ArchiveGraph.new.insert d, 1, 1, 1⟩, .col (.archive (.mk "q.zip" c.length d
            (sibs.map (fun s => ([tmpn, s.1], FileRec.ofPath [tmpn, s.1] s.2))) .nil))) := by
      rw [show sibs.length + 5 = (sibs.length + 4) + 1 from rfl, runJob]
      simp only [runJobStep]
      rw [show St.init.graph.containsB d = false from containsB_new d]
      rw [if_neg (by decide)]
      rw [show openArchive (quineEnv c sibs) St.init c
            = (⟨ArchiveGraph.new, 1, 0, 1⟩, .ok (.file "q.zip" c :: sibs.map (fun s => .file s.1 s.2)))
          from by simp [openArchive, quineEnv, St.init]]
      dsimp only
      rw [show ({ graph := ArchiveGraph.new.insert d, tmpMade := 1, tmpFreed := 0, calls := 1 } : St)
            = st2 from rfl]
      rw [show FsTree.dir (tmpDirName ["q.zip"]) (.file "q.zip" c :: sibs.map (fun s => .file s.1 s.2))
            = quineExtracted c sibs from rfl]
      rw [show treePaths [] (quineExtracted c sibs) = fsx from rfl]
      rw [htree]
      dsimp only
      simp [ArchiveRec.absorb, ArchiveRec.ofPath]
    -- assemble the whole invocation
    rw [calculate_fvc, calcList]
    rw [show ({ St.init with graph := ArchiveGraph.new } : St) = St.init from rfl]
    rw [calcFvcOf]
    rw [show sibs.length + 6 = (sibs.length + 5) + 1 from rfl, runJob]
    simp only [runJobStep]
    rw [show (([] : FsPath) ++ ["q.zip"]) = ["q.zip"] from rfl]
    rw [show treePaths [] (FsTree.file "q.zip" c) = [["q.zip"]] from rfl]
    rw [hfile]
    dsimp only [calcList]
    rw [RunRes.digests]
    simp [hashCollection, hashArchive, hashArchList, List.map_map, Function.comp, FileRec.ofPath]
  refine ⟨hmain, fun l hl => ?_⟩
  rw [hmain] at hl
  injection hl with hl
  subst hl
  rw [List.count_eq_zero]
  intro hmem
  obtain ⟨s, hs, he⟩ := List.mem_map.mp hmem
  exact h1 s hs he

/-- `open_archive` on an extractor format error: the temp directory is
created, then closed right there, and the error is returned. -/
theorem openArchive_format (env : Env) (st : St) (content : List Nat)
    (h : env.extract st.calls content = .formatErr) :
    openArchive env st content
      = ({ st with tmpMade := st.tmpMade + 1, tmpFreed := st.tmpFreed + 1, calls := st.calls + 1 },
         .error .format) := by
  simp [openArchive, h]

/-- The extractor for the C8 counterexample: its first call succeeds with a
single plain file; every later call fails with a format-class error. -/
def onceEnv : Env :=
  ⟨fun i _ => if i = 0 then .ok [.file "p.txt" [9]] else .formatErr⟩

set_option maxRecDepth 1000000 in
/-- C8 counterexample: a directory holding `x.zip` and `y.zip` with
identical archive bytes.  `x.zip` extracts fine and registers the digest;
`y.zip` is then a known archive, and when its extraction fails with a
non-I/O (format) error the run aborts through
`panic!("archive error for known archive")` instead of falling back to
leaf-file treatment as the claim demands. -/
theorem known_format_panic_cx :
    (calculate_fvc onceEnv .extension 8
        [.dir "top" [.file "x.zip" [0], .file "y.zip" [0]]]).2.isPanicked = true := by
  decide

/-- C8 amended: when archive extraction of a file whose digest is *not*
registered in the DAG fails with a non-I/O (format) error, processing is
non-fatal: the temp directory is released and the path becomes a leaf
`File` record with its content digest; but when the digest *is* already
registered, a non-I/O extraction error aborts the run with `panic!`
instead of falling back, wherever extraction is attempted: at top level
(no current archive) and nested inside another archive once the cycle
check admits the edge.  (When the cycle check refuses the edge the file is
skipped as `Empty` without any extraction attempt.) -/
theorem format_error_fallback (env : Env) (pol : ExtractPolicy) (fuel : Nat) (st : St)
    (fs : List FsPath) (current : Option Digest) (path : FsPath) (content : List Nat)
    (hpol : pol ≠ .none)
    (hfmt : env.extract st.calls content = .formatErr) :
    (st.graph.containsB (sha256 content) = false →
      (pol = .extension → is_extractable fs path ≠ 0) →
      extractOrProcessFile env pol (fuel + 1) st fs current path content
        = ({ st with tmpMade := st.tmpMade + 1, tmpFreed := st.tmpFreed + 1, calls := st.calls + 1 },
           .col (.file (FileRec.ofPath path content))))
    ∧ (st.graph.containsB (sha256 content) = true →
      (current = Option.none →
        extractOrProcessFile env pol (fuel + 1) st fs current path content
          = ({ st with tmpMade := st.tmpMade + 1, tmpFreed := st.tmpFreed + 1, calls := st.calls + 1 },
             .panicked))
      ∧ ∀ cur, current = some cur →
          (st.graph.add_edge cur (sha256 content)).1 = .ok →
          extractOrProcessFile env pol (fuel + 1) st fs current path content
            = ({ st with graph := (st.graph.add_edge cur (sha256 content)).2, tmpMade := st.tmpMade + 1, tmpFreed := st.tmpFreed + 1, calls := st.calls + 1 },
               .panicked)) := by
  constructor
  · intro hunk hsc
    simp only [extractOrProcessFile, runJob, runJobStep, hunk]
    cases pol with
    | none => exact absurd rfl hpol
    | extension =>
      rw [if_neg (fun hand => hsc rfl hand.2)]
      rw [openArchive_format env st content hfmt]
    | all =>
      rw [if_neg (fun hand => by cases hand.1)]
      rw [openArchive_format env st content hfmt]
  · intro hknown
    constructor
    · intro hcur
      subst hcur
      simp only [extractOrProcessFile, runJob, runJobStep, hknown]
      cases pol with
      | none => exact absurd rfl hpol
      | extension => rw [openArchive_format env st content hfmt]
      | all => rw [openArchive_format env st content hfmt]
    · intro cur hcur hedge
      subst hcur
      cases pol with
      | none => exact absurd rfl hpol
      | extension =>
        simp only [extractOrProcessFile, runJob, runJobStep, hknown]
        rcases hq : st.graph.add_edge cur (sha256 content) with ⟨er, g2⟩
        rw [hq] at hedge
        dsimp only at hedge
        subst hedge
        try dsimp only
        rw [openArchive_format env { st with graph := g2 } content hfmt]
      | all =>
        simp only [extractOrProcessFile, runJob, runJobStep, hknown]
        rcases hq : st.graph.add_edge cur (sha256 content) with ⟨er, g2⟩
        rw [hq] at hedge
        dsimp only at hedge
        subst hedge
        try dsimp only
        rw [openArchive_format env { st with graph := g2 } content hfmt]

set_option maxRecDepth 1000000 in
/-- Witness for the amended C8: a format-failing extractor on an unknown
file yields the leaf fallback with the temp directory balanced, and on a
file whose digest is registered, nested under another registered archive
with the edge admitted, the run panics. -/
theorem format_error_fallback_w :
    ArchiveGraph.new.containsB (sha256 [1]) = false
    ∧ extractOrProcessFile ⟨fun _ _ => .formatErr⟩ .all 1 St.init [] none ["x.bin"] [1]
        = ({ St.init with tmpMade := 1, tmpFreed := 1, calls := 1 },
           .col (.file (FileRec.ofPath ["x.bin"] [1])))
    ∧ extractOrProcessFile ⟨fun _ _ => .formatErr⟩ .all 1
        { St.init with graph := (ArchiveGraph.new.insert (sha256 [1])).insert (sha256 [2]) }
        [] (some (sha256 [2])) ["y.bin"] [1]
        = ({ St.init with
              graph := (((ArchiveGraph.new.insert (sha256 [1])).insert (sha256 [2])).add_edge (sha256 [2]) (sha256 [1])).2,
              tmpMade := 1, tmpFreed := 1, calls := 1 },
           .panicked) :=
  ⟨by decide, by
    have h := (format_error_fallback ⟨fun _ _ => .formatErr⟩ .all 0 St.init [] none
      ["x.bin"] [1] (by decide) rfl).1 (by decide) (fun hpe => by cases hpe)
    simpa using h, by
    have h2 := ((format_error_fallback ⟨fun _ _ => .formatErr⟩ .all 0
      { St.init with graph := (ArchiveGraph.new.insert (sha256 [1])).insert (sha256 [2]) }
      [] (some (sha256 [2])) ["y.bin"] [1] (by decide) rfl).2 (by rfl)).2
      (sha256 [2]) rfl (by rfl)
    simpa using h2⟩

/-- `open_archive` always creates exactly one temp directory, and releases
it before returning exactly when it fails. -/
theorem openArchive_inv (env : Env) (st : St) (content : List Nat)
    (st' : St) (r : Except ExtractErr (List FsTree))
    (h : openArchive env st content = (st', r)) :
    st'.tmpMade = st.tmpMade + 1
    ∧ (r.isOk = true → st'.tmpFreed = st.tmpFreed)
    ∧ (r.isOk = false → st'.tmpFreed = st.tmpFreed + 1) := by
  revert h
  simp only [openArchive]
  rcases henv : env.extract st.calls content with entries | _ | _ <;> intro h <;>
    injection h with h1 h2 <;> subst h1 <;> subst h2 <;>
    simp [Except.isOk, Except.toBool]

/-- Frame accounting of the traversal: across any job — normal return, I/O
error, panic or fuel exhaustion — the number of temp directories created
equals the number released (every frame that opens one closes it on each of
its exits). -/
theorem runJob_tmp_balance (env : Env) (pol : ExtractPolicy) :
    ∀ (fuel : Nat) (st : St) (job : Job),
      (runJob env pol fuel st job).1.tmpMade + st.tmpFreed
        = (runJob env pol fuel st job).1.tmpFreed + st.tmpMade := by
  intro fuel
  induction fuel with
  | zero => intro st job; exact Nat.add_comm _ _
  | succ fuel ih =>
    intro st job
    rcases job with ⟨fs, current, path, content⟩ | ⟨fs, current, base, t⟩ | ⟨fs, current, files, acc⟩
    · -- file job
      simp only [runJob, runJobStep]
      split
      · exact Nat.add_comm _ _
      · split
        · -- known archive inside another archive: the add_edge match
          split
          · exact Nat.add_comm _ _
          · exact Nat.add_comm _ _
          · -- edge accepted: the `known` block
            split
            · rename_i st1 heq
              obtain ⟨hma, -, herr⟩ := openArchive_inv env _ content _ _ heq
              have h1 : st1.tmpMade = st.tmpMade + 1 := hma
              have h2 : st1.tmpFreed = st.tmpFreed + 1 := herr rfl
              show st1.tmpMade + st.tmpFreed = st1.tmpFreed + st.tmpMade
              omega
            · rename_i st1 heq
              obtain ⟨hma, -, herr⟩ := openArchive_inv env _ content _ _ heq
              have h1 : st1.tmpMade = st.tmpMade + 1 := hma
              have h2 : st1.tmpFreed = st.tmpFreed + 1 := herr rfl
              show st1.tmpMade + st.tmpFreed = st1.tmpFreed + st.tmpMade
              omega
            · rename_i st1 entries heq
              obtain ⟨hma, hok, -⟩ := openArchive_inv env _ content _ _ heq
              have h1 : st1.tmpMade = st.tmpMade + 1 := hma
              have h2 : st1.tmpFreed = st.tmpFreed := hok rfl
              split
              · rename_i st2 c heq2
                have hb := ih st1
                  (Job.tree (treePaths [] (FsTree.dir (tmpDirName path) entries)) (some (sha256 content)) [] (FsTree.dir (tmpDirName path) entries))
                rw [heq2] at hb
                have h3 : st2.tmpMade + st1.tmpFreed = st2.tmpFreed + st1.tmpMade := hb
                show st2.tmpMade + st.tmpFreed = st2.tmpFreed + 1 + st.tmpMade
                omega
              · rename_i st2 r _ heq2
                have hb := ih st1
                  (Job.tree (treePaths [] (FsTree.dir (tmpDirName path) entries)) (some (sha256 content)) [] (FsTree.dir (tmpDirName path) entries))
                rw [heq2] at hb
                have h3 : st2.tmpMade + st1.tmpFreed = st2.tmpFreed + st1.tmpMade := hb
                show st2.tmpMade + st.tmpFreed = st2.tmpFreed + 1 + st.tmpMade
                omega
        · -- known archive at top level: the `known` block
          split
          · rename_i st1 heq
            obtain ⟨hma, -, herr⟩ := openArchive_inv env _ content _ _ heq
            have h1 : st1.tmpMade = st.tmpMade + 1 := hma
            have h2 : st1.tmpFreed = st.tmpFreed + 1 := herr rfl
            show st1.tmpMade + st.tmpFreed = st1.tmpFreed + st.tmpMade
            omega
          · rename_i st1 heq
            obtain ⟨hma, -, herr⟩ := openArchive_inv env _ content _ _ heq
            have h1 : st1.tmpMade = st.tmpMade + 1 := hma
            have h2 : st1.tmpFreed = st.tmpFreed + 1 := herr rfl
            show st1.tmpMade + st.tmpFreed = st1.tmpFreed + st.tmpMade
            omega
          · rename_i st1 entries heq
            obtain ⟨hma, hok, -⟩ := openArchive_inv env _ content _ _ heq
            have h1 : st1.tmpMade = st.tmpMade + 1 := hma
            have h2 : st1.tmpFreed = st.tmpFreed := hok rfl
            split
            · rename_i st2 c heq2
              have hb := ih st1
                (Job.tree (treePaths [] (FsTree.dir (tmpDirName path) entries)) (some (sha256 content)) [] (FsTree.dir (tmpDirName path) entries))
              rw [heq2] at hb
              have h3 : st2.tmpMade + st1.tmpFreed = st2.tmpFreed + st1.tmpMade := hb
              show st2.tmpMade + st.tmpFreed = st2.tmpFreed + 1 + st.tmpMade
              omega
            · rename_i st2 r _ heq2
              have hb := ih st1
                (Job.tree (treePaths [] (FsTree.dir (tmpDirName path) entries)) (some (sha256 content)) [] (FsTree.dir (tmpDirName path) entries))
              rw [heq2] at hb
              have h3 : st2.tmpMade + st1.tmpFreed = st2.tmpFreed + st1.tmpMade := hb
              show st2.tmpMade + st.tmpFreed = st2.tmpFreed + 1 + st.tmpMade
              omega
        · -- unknown file: the `unknown` block
          split
          · exact Nat.add_comm _ _
          · split
            · rename_i st1 heq
              obtain ⟨hma, -, herr⟩ := openArchive_inv env _ content _ _ heq
              have h1 : st1.tmpMade = st.tmpMade + 1 := hma
              have h2 : st1.tmpFreed = st.tmpFreed + 1 := herr rfl
              show st1.tmpMade + st.tmpFreed = st1.tmpFreed + st.tmpMade
              omega
            · rename_i st1 heq
              obtain ⟨hma, -, herr⟩ := openArchive_inv env _ content _ _ heq
              have h1 : st1.tmpMade = st.tmpMade + 1 := hma
              have h2 : st1.tmpFreed = st.tmpFreed + 1 := herr rfl
              show st1.tmpMade + st.tmpFreed = st1.tmpFreed + st.tmpMade
              omega
            · rename_i st1 entries heq
              obtain ⟨hma, hok, -⟩ := openArchive_inv env _ content _ _ heq
              have h1 : st1.tmpMade = st.tmpMade + 1 := hma
              have h2 : st1.tmpFreed = st.tmpFreed := hok rfl
              split
              · rename_i st2 c heq2
                have hb := ih { st1 with graph := st1.graph.insert (sha256 content) }
                  (Job.tree (treePaths [] (FsTree.dir (tmpDirName path) entries)) (some (sha256 content)) [] (FsTree.dir (tmpDirName path) entries))
                rw [heq2] at hb
                have h3 : st2.tmpMade + st1.tmpFreed = st2.tmpFreed + st1.tmpMade := hb
                show st2.tmpMade + st.tmpFreed = st2.tmpFreed + 1 + st.tmpMade
                omega
              · rename_i st2 r _ heq2
                have hb := ih { st1 with graph := st1.graph.insert (sha256 content) }
                  (Job.tree (treePaths [] (FsTree.dir (tmpDirName path) entries)) (some (sha256 content)) [] (FsTree.dir (tmpDirName path) entries))
                rw [heq2] at hb
                have h3 : st2.tmpMade + st1.tmpFreed = st2.tmpFreed + st1.tmpMade := hb
                show st2.tmpMade + st.tmpFreed = st2.tmpFreed + 1 + st.tmpMade
                omega
    · -- tree job
      simp only [runJob, runJobStep]
      rcases t with ⟨name, content⟩ | ⟨name, entries⟩ | ⟨name⟩ <;> dsimp only
      · exact ih st _
      · split
        · rename_i heq
          have hb := ih st (Job.walk fs current (filesOf base (FsTree.dir name entries))
            ⟨base ++ [name], [], .nil⟩)
          rw [heq] at hb
          exact hb
        · rename_i heq
          have hb := ih st (Job.walk fs current (filesOf base (FsTree.dir name entries))
            ⟨base ++ [name], [], .nil⟩)
          rw [heq] at hb
          exact hb
      · exact Nat.add_comm _ _
    · -- walk job
      simp only [runJob, runJobStep]
      rcases files with _ | ⟨⟨p, c⟩, rest⟩ <;> dsimp only
      · exact Nat.add_comm _ _
      · split
        · rename_i st1 f heq
          have h1 := ih st (.file fs current p c)
          rw [heq] at h1
          have h2 := ih st1 (.walk fs current rest
            ⟨acc.directory, mapSet acc.files p f, acc.archives⟩)
          simp only at h1 h2 ⊢
          omega
        · rename_i st1 a heq
          have h1 := ih st (.file fs current p c)
          rw [heq] at h1
          have h2 := ih st1 (.walk fs current rest
            ⟨acc.directory, acc.files, acc.archives.set p a⟩)
          simp only at h1 h2 ⊢
          omega
        · rename_i st1 d heq
          have h1 := ih st (.file fs current p c)
          rw [heq] at h1
          exact h1
        · rename_i st1 heq
          have h1 := ih st (.file fs current p c)
          rw [heq] at h1
          have h2 := ih st1 (.walk fs current rest acc)
          simp only at h1 h2 ⊢
          omega
        · rename_i heq
          have h1 := ih st (.file fs current p c)
          rw [heq] at h1
          exact h1

/-- C9: every temporary extraction directory created during a
`calculate_fvc` invocation is released by the end of the invocation on
every outcome — normal return, error propagation (extraction format and
I/O errors alike), panics, cycle skips and fuel exhaustion: per frame the
created/released deltas agree (first conjunct), and a whole invocation
from the fresh state ends with created = released, so no
`fvc_extracted_archive.*` directory it created remains. -/
theorem calculate_fvc_cleanup :
    (∀ (env : Env) (pol : ExtractPolicy) (fuel : Nat) (st : St) (job : Job),
      (runJob env pol fuel st job).1.tmpMade + st.tmpFreed
        = (runJob env pol fuel st job).1.tmpFreed + st.tmpMade)
    ∧ (∀ (env : Env) (pol : ExtractPolicy) (fuel : Nat) (inputs : List FsTree),
      (calculate_fvc env pol fuel inputs).1.tmpMade
        = (calculate_fvc env pol fuel inputs).1.tmpFreed) := by
  refine ⟨fun env pol fuel st job => runJob_tmp_balance env pol fuel st job, ?_⟩
  intro env pol fuel inputs
  have hlist : ∀ (ts : List FsTree) (st : St),
      (calcList env pol fuel st ts).1.tmpMade + st.tmpFreed
        = (calcList env pol fuel st ts).1.tmpFreed + st.tmpMade := by
    intro ts
    induction ts with
    | nil => intro st; exact Nat.add_comm _ _
    | cons t ts ih =>
      intro st
      simp only [calcList]
      have h1 := runJob_tmp_balance env pol fuel { st with graph := ArchiveGraph.new }
        (.tree (treePaths [] t) none [] t)
      simp only [calcFvcOf]
      split
      · rename_i st1 c heq
        rw [heq] at h1
        have h2 := ih st1
        split
        · rename_i st2 cs heq2
          rw [heq2] at h2
          simp only at h1 h2 ⊢
          omega
        · rename_i st2 heq2
          rw [heq2] at h2
          simp only at h1 h2 ⊢
          omega
        · rename_i st2 heq2
          rw [heq2] at h2
          simp only at h1 h2 ⊢
          omega
        · rename_i st2 heq2
          rw [heq2] at h2
          simp only at h1 h2 ⊢
          omega
      · rename_i st1 d heq
        rw [heq] at h1
        simpa using h1
      · rename_i st1 heq
        rw [heq] at h1
        simpa using h1
      · rename_i st1 heq
        rw [heq] at h1
        simpa using h1
      · rename_i st1 heq
        rw [heq] at h1
        simpa using h1
  have h := hlist inputs St.init
  simp only [calculate_fvc, St.init] at h ⊢
  omega

set_option maxRecDepth 100000 in
/-- Witness for the amended C3: a quine with bytes `[7]` and one sibling
`s.txt` with bytes `[9]`; the FVC's digest multiset is exactly the
sibling's digest. -/
theorem quine_run_w :
    (∀ s ∈ [("s.txt", [9])], sha256 s.2 ≠ sha256 [7])
    ∧ (calculate_fvc (quineEnv [7] [("s.txt", [9])]) .extension 7
        [.file "q.zip" [7]]).2.digests = some [sha256 [9]] :=
  ⟨by decide,
    (quine_run [7] [("s.txt", [9])] (by decide) (by decide) (by decide)).1⟩

/-- A deterministic extractor for the C10 witness: archive bytes `[0]`
extract to a single file `f.txt` with bytes `[1]`; anything else is a
format error. -/
def envW : Env :=
  ⟨fun _ c => if c = [0] then .ok [.file "f.txt" [1]] else .formatErr⟩

/-- The call-index-free description of `envW`. -/
def exfW : List Nat → ExtractOut :=
  fun c => if c = [0] then .ok [.file "f.txt" [1]] else .formatErr

/-- Final state of the single-input witness run. -/
def st1W : St := (calculate_fvc envW .all 9 [FsTree.file "a.zip" [0]]).1

/-- Collection produced by the single-input witness run. -/
def cW : Collection :=
  match (calculate_fvc envW .all 9 [FsTree.file "a.zip" [0]]).2 with
  | .ok [c] => c
  | _ => .empty

/-- `open_archive` in lockstep from two states: when the extractor ignores
its call index, the outcome is the same from both, each preserves its
starting graph, and the call counters advance by the same amount. -/
theorem openArchive_shift (env : Env) (exf : List Nat → ExtractOut)
    (hdet : ∀ i c, env.extract i c = exf c)
    (st st' s1 s1' : St) (content : List Nat)
    (r r' : Except ExtractErr (List FsTree))
    (hA : openArchive env st content = (s1, r))
    (hB : openArchive env st' content = (s1', r')) :
    r = r' ∧ s1.graph = st.graph ∧ s1'.graph = st'.graph
    ∧ s1.calls + st'.calls = s1'.calls + st.calls := by
  revert hA hB
  simp only [openArchive, hdet]
  rcases exf content with entries | _ | _ <;> intro hA hB <;>
    injection hA with a1 a2 <;> injection hB with b1 b2 <;>
    subst a1 <;> subst a2 <;> subst b1 <;> subst b2 <;>
    refine ⟨rfl, rfl, rfl, ?_⟩ <;>
    show st.calls + 1 + st'.calls = st'.calls + 1 + st.calls <;> omega

/-- The traversal depends on the ambient state only through the cycle
graph: when the extractor ignores its call index, two runs of the same job
from states with equal graphs produce the same result, end with equal
graphs, and advance the extractor-call counter by the same amount. -/
theorem runJob_shift (env : Env) (pol : ExtractPolicy)
    (exf : List Nat → ExtractOut)
    (hdet : ∀ i c, env.extract i c = exf c) :
    ∀ (fuel : Nat) (st st' : St) (job : Job), st.graph = st'.graph →
      (runJob env pol fuel st job).2 = (runJob env pol fuel st' job).2
      ∧ (runJob env pol fuel st job).1.graph
          = (runJob env pol fuel st' job).1.graph
      ∧ (runJob env pol fuel st job).1.calls + st'.calls
          = (runJob env pol fuel st' job).1.calls + st.calls := by
  intro fuel
  induction fuel with
  | zero => intro st st' job hg; exact ⟨rfl, hg, Nat.add_comm _ _⟩
  | succ fuel ih =>
    intro st st' job hg
    rcases job with ⟨fs, current, path, content⟩ | ⟨fs, current, base, t⟩ | ⟨fs, current, files, acc⟩
    · -- file job
      cases pol with
      | none =>
        simp only [runJob, runJobStep]
        exact ⟨trivial, hg, Nat.add_comm _ _⟩
      | extension =>
        simp only [runJob, runJobStep]
        rw [← hg]
        rcases current with _ | cur
        · cases hcb : st.graph.containsB (sha256 content)
          · -- unknown digest: the unknown block
            dsimp only
            split
            · exact ⟨rfl, hg, Nat.add_comm _ _⟩
            · 
              rcases hA : openArchive env st content with ⟨s1, r1⟩
              rcases hB : openArchive env st' content with ⟨s1', r1'⟩
              obtain ⟨hpr, hga, hgb, hcall⟩ :=
                openArchive_shift env exf hdet st st' s1 s1' content r1 r1' hA hB
              subst hpr
              rcases r1 with err | entries
              · cases err
                · exact ⟨rfl, by show s1.graph = s1'.graph; rw [hga, hgb]; exact hg,
                    by show s1.calls + st'.calls = s1'.calls + st.calls; exact hcall⟩
                · exact ⟨rfl, by show s1.graph = s1'.graph; rw [hga, hgb]; exact hg,
                    by show s1.calls + st'.calls = s1'.calls + st.calls; exact hcall⟩
              · dsimp only
                obtain ⟨hp2, hg2, hc2⟩ := ih
                  { s1 with graph := s1.graph.insert (sha256 content) }
                  { s1' with graph := s1'.graph.insert (sha256 content) }
                  (Job.tree (treePaths [] (FsTree.dir (tmpDirName path) entries))
                      (some (sha256 content)) [] (FsTree.dir (tmpDirName path) entries))
                  (by dsimp only; rw [hga, hgb, hg])
                rcases h1 : runJob env ExtractPolicy.extension fuel
                    { s1 with graph := s1.graph.insert (sha256 content) }
                    (Job.tree (treePaths [] (FsTree.dir (tmpDirName path) entries))
                        (some (sha256 content)) [] (FsTree.dir (tmpDirName path) entries))
                  with ⟨s2, r2⟩
                rcases h2 : runJob env ExtractPolicy.extension fuel
                    { s1' with graph := s1'.graph.insert (sha256 content) }
                    (Job.tree (treePaths [] (FsTree.dir (tmpDirName path) entries))
                        (some (sha256 content)) [] (FsTree.dir (tmpDirName path) entries))
                  with ⟨s2', r2'⟩
                rw [h1, h2] at hp2 hg2 hc2
                dsimp only at hp2 hg2 hc2
                subst hp2
                have hcf : s2.calls + st'.calls = s2'.calls + st.calls := by
                  have hc0 : s1.calls + st'.calls = s1'.calls + st.calls := hcall
                  omega
                rcases r2 with c | d | _ | _ | _ <;> exact ⟨rfl, hg2, hcf⟩
          · -- known digest at top level: the known block
            try dsimp only
            rcases hA : openArchive env st content with ⟨s1, r1⟩
            rcases hB : openArchive env st' content with ⟨s1', r1'⟩
            obtain ⟨hpr, hga, hgb, hcall⟩ :=
              openArchive_shift env exf hdet st st' s1 s1' content r1 r1' hA hB
            subst hpr
            rcases r1 with err | entries
            · cases err
              · exact ⟨rfl, by show s1.graph = s1'.graph; rw [hga, hgb]; exact hg,
                  by show s1.calls + st'.calls = s1'.calls + st.calls; exact hcall⟩
              · exact ⟨rfl, by show s1.graph = s1'.graph; rw [hga, hgb]; exact hg,
                  by show s1.calls + st'.calls = s1'.calls + st.calls; exact hcall⟩
            · dsimp only
              obtain ⟨hp2, hg2, hc2⟩ := ih s1 s1'
                (Job.tree (treePaths [] (FsTree.dir (tmpDirName path) entries))
                    (some (sha256 content)) [] (FsTree.dir (tmpDirName path) entries))
                (by rw [hga, hgb]; exact hg)
              rcases h1 : runJob env ExtractPolicy.extension fuel s1
                  (Job.tree (treePaths [] (FsTree.dir (tmpDirName path) entries))
                      (some (sha256 content)) [] (FsTree.dir (tmpDirName path) entries))
                with ⟨s2, r2⟩
              rcases h2 : runJob env ExtractPolicy.extension fuel s1'
                  (Job.tree (treePaths [] (FsTree.dir (tmpDirName path) entries))
                      (some (sha256 content)) [] (FsTree.dir (tmpDirName path) entries))
                with ⟨s2', r2'⟩
              rw [h1, h2] at hp2 hg2 hc2
              dsimp only at hp2 hg2 hc2
              subst hp2
              have hcf : s2.calls + st'.calls = s2'.calls + st.calls := by
                have hc0 : s1.calls + st'.calls = s1'.calls + st.calls := hcall
                omega
              rcases r2 with c | d | _ | _ | _ <;> exact ⟨rfl, hg2, hcf⟩
        · cases hcb : st.graph.containsB (sha256 content)
          · -- unknown digest inside an archive: the unknown block
            dsimp only
            split
            · exact ⟨rfl, hg, Nat.add_comm _ _⟩
            · 
              rcases hA : openArchive env st content with ⟨s1, r1⟩
              rcases hB : openArchive env st' content with ⟨s1', r1'⟩
              obtain ⟨hpr, hga, hgb, hcall⟩ :=
                openArchive_shift env exf hdet st st' s1 s1' content r1 r1' hA hB
              subst hpr
              rcases r1 with err | entries
              · cases err
                · exact ⟨rfl, by show s1.graph = s1'.graph; rw [hga, hgb]; exact hg,
                    by show s1.calls + st'.calls = s1'.calls + st.calls; exact hcall⟩
                · exact ⟨rfl, by show s1.graph = s1'.graph; rw [hga, hgb]; exact hg,
                    by show s1.calls + st'.calls = s1'.calls + st.calls; exact hcall⟩
              · dsimp only
                obtain ⟨hp2, hg2, hc2⟩ := ih
                  { s1 with graph := s1.graph.insert (sha256 content) }
                  { s1' with graph := s1'.graph.insert (sha256 content) }
                  (Job.tree (treePaths [] (FsTree.dir (tmpDirName path) entries))
                      (some (sha256 content)) [] (FsTree.dir (tmpDirName path) entries))
                  (by dsimp only; rw [hga, hgb, hg])
                rcases h1 : runJob env ExtractPolicy.extension fuel
                    { s1 with graph := s1.graph.insert (sha256 content) }
                    (Job.tree (treePaths [] (FsTree.dir (tmpDirName path) entries))
                        (some (sha256 content)) [] (FsTree.dir (tmpDirName path) entries))
                  with ⟨s2, r2⟩
                rcases h2 : runJob env ExtractPolicy.extension fuel
                    { s1' with graph := s1'.graph.insert (sha256 content) }
                    (Job.tree (treePaths [] (FsTree.dir (tmpDirName path) entries))
                        (some (sha256 content)) [] (FsTree.dir (tmpDirName path) entries))
                  with ⟨s2', r2'⟩
                rw [h1, h2] at hp2 hg2 hc2
                dsimp only at hp2 hg2 hc2
                subst hp2
                have hcf : s2.calls + st'.calls = s2'.calls + st.calls := by
                  have hc0 : s1.calls + st'.calls = s1'.calls + st.calls := hcall
                  omega
                rcases r2 with c | d | _ | _ | _ <;> exact ⟨rfl, hg2, hcf⟩
          · -- known digest inside an archive: the add_edge match first
            dsimp only
            split
            · exact ⟨rfl, rfl, Nat.add_comm _ _⟩
            · exact ⟨rfl, rfl, Nat.add_comm _ _⟩
            · -- edge accepted: the known block
              rename_i g2 hedge
              try dsimp only
              rcases hA : openArchive env { st with graph := g2 } content with ⟨s1, r1⟩
              rcases hB : openArchive env { st' with graph := g2 } content with ⟨s1', r1'⟩
              obtain ⟨hpr, hga, hgb, hcall⟩ :=
                openArchive_shift env exf hdet { st with graph := g2 } { st' with graph := g2 } s1 s1' content r1 r1' hA hB
              subst hpr
              rcases r1 with err | entries
              · cases err
                · exact ⟨rfl, by show s1.graph = s1'.graph; rw [hga, hgb],
                    by show s1.calls + st'.calls = s1'.calls + st.calls; exact hcall⟩
                · exact ⟨rfl, by show s1.graph = s1'.graph; rw [hga, hgb],
                    by show s1.calls + st'.calls = s1'.calls + st.calls; exact hcall⟩
              · dsimp only
                obtain ⟨hp2, hg2, hc2⟩ := ih s1 s1'
                  (Job.tree (treePaths [] (FsTree.dir (tmpDirName path) entries))
                      (some (sha256 content)) [] (FsTree.dir (tmpDirName path) entries))
                  (by rw [hga, hgb])
                rcases h1 : runJob env ExtractPolicy.extension fuel s1
                    (Job.tree (treePaths [] (FsTree.dir (tmpDirName path) entries))
                        (some (sha256 content)) [] (FsTree.dir (tmpDirName path) entries))
                  with ⟨s2, r2⟩
                rcases h2 : runJob env ExtractPolicy.extension fuel s1'
                    (Job.tree (treePaths [] (FsTree.dir (tmpDirName path) entries))
                        (some (sha256 content)) [] (FsTree.dir (tmpDirName path) entries))
                  with ⟨s2', r2'⟩
                rw [h1, h2] at hp2 hg2 hc2
                dsimp only at hp2 hg2 hc2
                subst hp2
                have hcf : s2.calls + st'.calls = s2'.calls + st.calls := by
                  have hc0 : s1.calls + st'.calls = s1'.calls + st.calls := hcall
                  omega
                rcases r2 with c | d | _ | _ | _ <;> exact ⟨rfl, hg2, hcf⟩
      | all =>
        simp only [runJob, runJobStep]
        rw [← hg]
        rcases current with _ | cur
        · cases hcb : st.graph.containsB (sha256 content)
          · -- unknown digest: the unknown block
            dsimp only
            rcases hA : openArchive env st content with ⟨s1, r1⟩
            rcases hB : openArchive env st' content with ⟨s1', r1'⟩
            obtain ⟨hpr, hga, hgb, hcall⟩ :=
              openArchive_shift env exf hdet st st' s1 s1' content r1 r1' hA hB
            subst hpr
            rcases r1 with err | entries
            · cases err
              · exact ⟨rfl, by show s1.graph = s1'.graph; rw [hga, hgb]; exact hg,
                  by show s1.calls + st'.calls = s1'.calls + st.calls; exact hcall⟩
              · exact ⟨rfl, by show s1.graph = s1'.graph; rw [hga, hgb]; exact hg,
                  by show s1.calls + st'.calls = s1'.calls + st.calls; exact hcall⟩
            · dsimp only
              obtain ⟨hp2, hg2, hc2⟩ := ih
                { s1 with graph := s1.graph.insert (sha256 content) }
                { s1' with graph := s1'.graph.insert (sha256 content) }
                (Job.tree (treePaths [] (FsTree.dir (tmpDirName path) entries))
                    (some (sha256 content)) [] (FsTree.dir (tmpDirName path) entries))
                (by dsimp only; rw [hga, hgb, hg])
              rcases h1 : runJob env ExtractPolicy.all fuel
                  { s1 with graph := s1.graph.insert (sha256 content) }
                  (Job.tree (treePaths [] (FsTree.dir (tmpDirName path) entries))
                      (some (sha256 content)) [] (FsTree.dir (tmpDirName path) entries))
                with ⟨s2, r2⟩
              rcases h2 : runJob env ExtractPolicy.all fuel
                  { s1' with graph := s1'.graph.insert (sha256 content) }
                  (Job.tree (treePaths [] (FsTree.dir (tmpDirName path) entries))
                      (some (sha256 content)) [] (FsTree.dir (tmpDirName path) entries))
                with ⟨s2', r2'⟩
              rw [h1, h2] at hp2 hg2 hc2
              dsimp only at hp2 hg2 hc2
              subst hp2
              have hcf : s2.calls + st'.calls = s2'.calls + st.calls := by
                have hc0 : s1.calls + st'.calls = s1'.calls + st.calls := hcall
                omega
              rcases r2 with c | d | _ | _ | _ <;> exact ⟨rfl, hg2, hcf⟩
          · -- known digest at top level: the known block
            try dsimp only
            rcases hA : openArchive env st content with ⟨s1, r1⟩
            rcases hB : openArchive env st' content with ⟨s1', r1'⟩
            obtain ⟨hpr, hga, hgb, hcall⟩ :=
              openArchive_shift env exf hdet st st' s1 s1' content r1 r1' hA hB
            subst hpr
            rcases r1 with err | entries
            · cases err
              · exact ⟨rfl, by show s1.graph = s1'.graph; rw [hga, hgb]; exact hg,
                  by show s1.calls + st'.calls = s1'.calls + st.calls; exact hcall⟩
              · exact ⟨rfl, by show s1.graph = s1'.graph; rw [hga, hgb]; exact hg,
                  by show s1.calls + st'.calls = s1'.calls + st.calls; exact hcall⟩
            · dsimp only
              obtain ⟨hp2, hg2, hc2⟩ := ih s1 s1'
                (Job.tree (treePaths [] (FsTree.dir (tmpDirName path) entries))
                    (some (sha256 content)) [] (FsTree.dir (tmpDirName path) entries))
                (by rw [hga, hgb]; exact hg)
              rcases h1 : runJob env ExtractPolicy.all fuel s1
                  (Job.tree (treePaths [] (FsTree.dir (tmpDirName path) entries))
                      (some (sha256 content)) [] (FsTree.dir (tmpDirName path) entries))
                with ⟨s2, r2⟩
              rcases h2 : runJob env ExtractPolicy.all fuel s1'
                  (Job.tree (treePaths [] (FsTree.dir (tmpDirName path) entries))
                      (some (sha256 content)) [] (FsTree.dir (tmpDirName path) entries))
                with ⟨s2', r2'⟩
              rw [h1, h2] at hp2 hg2 hc2
              dsimp only at hp2 hg2 hc2
              subst hp2
              have hcf : s2.calls + st'.calls = s2'.calls + st.calls := by
                have hc0 : s1.calls + st'.calls = s1'.calls + st.calls := hcall
                omega
              rcases r2 with c | d | _ | _ | _ <;> exact ⟨rfl, hg2, hcf⟩
        · cases hcb : st.graph.containsB (sha256 content)
          · -- unknown digest inside an archive: the unknown block
            dsimp only
            rcases hA : openArchive env st content with ⟨s1, r1⟩
            rcases hB : openArchive env st' content with ⟨s1', r1'⟩
            obtain ⟨hpr, hga, hgb, hcall⟩ :=
              openArchive_shift env exf hdet st st' s1 s1' content r1 r1' hA hB
            subst hpr
            rcases r1 with err | entries
            · cases err
              · exact ⟨rfl, by show s1.graph = s1'.graph; rw [hga, hgb]; exact hg,
                  by show s1.calls + st'.calls = s1'.calls + st.calls; exact hcall⟩
              · exact ⟨rfl, by show s1.graph = s1'.graph; rw [hga, hgb]; exact hg,
                  by show s1.calls + st'.calls = s1'.calls + st.calls; exact hcall⟩
            · dsimp only
              obtain ⟨hp2, hg2, hc2⟩ := ih
                { s1 with graph := s1.graph.insert (sha256 content) }
                { s1' with graph := s1'.graph.insert (sha256 content) }
                (Job.tree (treePaths [] (FsTree.dir (tmpDirName path) entries))
                    (some (sha256 content)) [] (FsTree.dir (tmpDirName path) entries))
                (by dsimp only; rw [hga, hgb, hg])
              rcases h1 : runJob env ExtractPolicy.all fuel
                  { s1 with graph := s1.graph.insert (sha256 content) }
                  (Job.tree (treePaths [] (FsTree.dir (tmpDirName path) entries))
                      (some (sha256 content)) [] (FsTree.dir (tmpDirName path) entries))
                with ⟨s2, r2⟩
              rcases h2 : runJob env ExtractPolicy.all fuel
                  { s1' with graph := s1'.graph.insert (sha256 content) }
                  (Job.tree (treePaths [] (FsTree.dir (tmpDirName path) entries))
                      (some (sha256 content)) [] (FsTree.dir (tmpDirName path) entries))
                with ⟨s2', r2'⟩
              rw [h1, h2] at hp2 hg2 hc2
              dsimp only at hp2 hg2 hc2
              subst hp2
              have hcf : s2.calls + st'.calls = s2'.calls + st.calls := by
                have hc0 : s1.calls + st'.calls = s1'.calls + st.calls := hcall
                omega
              rcases r2 with c | d | _ | _ | _ <;> exact ⟨rfl, hg2, hcf⟩
          · -- known digest inside an archive: the add_edge match first
            dsimp only
            split
            · exact ⟨rfl, rfl, Nat.add_comm _ _⟩
            · exact ⟨rfl, rfl, Nat.add_comm _ _⟩
            · -- edge accepted: the known block
              rename_i g2 hedge
              try dsimp only
              rcases hA : openArchive env { st with graph := g2 } content with ⟨s1, r1⟩
              rcases hB : openArchive env { st' with graph := g2 } content with ⟨s1', r1'⟩
              obtain ⟨hpr, hga, hgb, hcall⟩ :=
                openArchive_shift env exf hdet { st with graph := g2 } { st' with graph := g2 } s1 s1' content r1 r1' hA hB
              subst hpr
              rcases r1 with err | entries
              · cases err
                · exact ⟨rfl, by show s1.graph = s1'.graph; rw [hga, hgb],
                    by show s1.calls + st'.calls = s1'.calls + st.calls; exact hcall⟩
                · exact ⟨rfl, by show s1.graph = s1'.graph; rw [hga, hgb],
                    by show s1.calls + st'.calls = s1'.calls + st.calls; exact hcall⟩
              · dsimp only
                obtain ⟨hp2, hg2, hc2⟩ := ih s1 s1'
                  (Job.tree (treePaths [] (FsTree.dir (tmpDirName path) entries))
                      (some (sha256 content)) [] (FsTree.dir (tmpDirName path) entries))
                  (by rw [hga, hgb])
                rcases h1 : runJob env ExtractPolicy.all fuel s1
                    (Job.tree (treePaths [] (FsTree.dir (tmpDirName path) entries))
                        (some (sha256 content)) [] (FsTree.dir (tmpDirName path) entries))
                  with ⟨s2, r2⟩
                rcases h2 : runJob env ExtractPolicy.all fuel s1'
                    (Job.tree (treePaths [] (FsTree.dir (tmpDirName path) entries))
                        (some (sha256 content)) [] (FsTree.dir (tmpDirName path) entries))
                  with ⟨s2', r2'⟩
                rw [h1, h2] at hp2 hg2 hc2
                dsimp only at hp2 hg2 hc2
                subst hp2
                have hcf : s2.calls + st'.calls = s2'.calls + st.calls := by
                  have hc0 : s1.calls + st'.calls = s1'.calls + st.calls := hcall
                  omega
                rcases r2 with c | d | _ | _ | _ <;> exact ⟨rfl, hg2, hcf⟩
    · -- tree job
      simp only [runJob, runJobStep]
      rcases t with ⟨name, content⟩ | ⟨name, entries⟩ | ⟨name⟩ <;> dsimp only
      · exact ih st st' (Job.file fs current (base ++ [name]) content) hg
      · obtain ⟨hp2, hg2, hc2⟩ := ih st st'
          (Job.walk fs current (filesOf base (FsTree.dir name entries))
            ⟨base ++ [name], [], .nil⟩) hg
        rcases h1 : runJob env pol fuel st
            (Job.walk fs current (filesOf base (FsTree.dir name entries))
              ⟨base ++ [name], [], .nil⟩)
          with ⟨s1, r1⟩
        rcases h2 : runJob env pol fuel st'
            (Job.walk fs current (filesOf base (FsTree.dir name entries))
              ⟨base ++ [name], [], .nil⟩)
          with ⟨s1', r1'⟩
        rw [h1, h2] at hp2 hg2 hc2
        dsimp only at hp2 hg2 hc2
        subst hp2
        rcases r1 with c0 | d | _ | _ | _ <;> exact ⟨rfl, hg2, hc2⟩
      · exact ⟨rfl, hg, Nat.add_comm _ _⟩
    · -- walk job
      simp only [runJob, runJobStep]
      rcases files with _ | ⟨⟨p, c⟩, rest⟩ <;> dsimp only
      · exact ⟨rfl, hg, Nat.add_comm _ _⟩
      · obtain ⟨hp1, hg1, hc1⟩ := ih st st' (Job.file fs current p c) hg
        rcases h1 : runJob env pol fuel st (Job.file fs current p c) with ⟨s1, r1⟩
        rcases h2 : runJob env pol fuel st' (Job.file fs current p c) with ⟨s1', r1'⟩
        rw [h1, h2] at hp1 hg1 hc1
        dsimp only at hp1 hg1 hc1
        subst hp1
        rcases r1 with c0 | d | _ | _ | _
        · rcases c0 with f | a | d0 | _
          · dsimp only
            obtain ⟨hp2, hg2, hc2⟩ := ih s1 s1'
              (Job.walk fs current rest
                ⟨acc.directory, mapSet acc.files p f, acc.archives⟩) hg1
            refine ⟨hp2, hg2, ?_⟩
            omega
          · dsimp only
            obtain ⟨hp2, hg2, hc2⟩ := ih s1 s1'
              (Job.walk fs current rest
                ⟨acc.directory, acc.files, acc.archives.set p a⟩) hg1
            refine ⟨hp2, hg2, ?_⟩
            omega
          · exact ⟨rfl, hg1, hc1⟩
          · dsimp only
            obtain ⟨hp2, hg2, hc2⟩ := ih s1 s1' (Job.walk fs current rest acc) hg1
            refine ⟨hp2, hg2, ?_⟩
            omega
        · exact ⟨rfl, hg1, hc1⟩
        · exact ⟨rfl, hg1, hc1⟩
        · exact ⟨rfl, hg1, hc1⟩
        · exact ⟨rfl, hg1, hc1⟩

/-- C10: `calculate_fvc` processes each top-level input against a freshly
created, empty `ArchiveGraph`.  Provided only that the extractor
collaborator ignores its call index, (1) the results of a run are
independent of the whole ambient state carried between inputs — in
particular of every archive identity recorded while processing earlier
inputs, so cycle detection never spans two top-level inputs — and (2) an
identical archive supplied as two separate input arguments is extracted
and traversed both times: the duplicated run returns the same collection
twice and makes exactly twice as many extractor calls. -/
theorem calculate_fvc_fresh_dag (env : Env) (pol : ExtractPolicy)
    (exf : List Nat → ExtractOut)
    (hdet : ∀ i c, env.extract i c = exf c) (fuel : Nat) :
    (∀ (ts : List FsTree) (st st' : St),
      (calcList env pol fuel st ts).2 = (calcList env pol fuel st' ts).2)
    ∧ ∀ (t : FsTree) (st1 : St) (c : Collection),
        calculate_fvc env pol fuel [t] = (st1, RunRes.ok [c]) →
        (calculate_fvc env pol fuel [t, t]).2 = RunRes.ok [c, c]
        ∧ (calculate_fvc env pol fuel [t, t]).1.calls = 2 * st1.calls := by
  have hind : ∀ (ts : List FsTree) (st st' : St),
      (calcList env pol fuel st ts).2 = (calcList env pol fuel st' ts).2 := by
    intro ts
    induction ts with
    | nil => intro st st'; rfl
    | cons t ts ih =>
      intro st st'
      simp only [calcList, calcFvcOf]
      obtain ⟨hp1, hg1, hc1⟩ := runJob_shift env pol exf hdet fuel
        { st with graph := ArchiveGraph.new } { st' with graph := ArchiveGraph.new }
        (Job.tree (treePaths [] t) none [] t) rfl
      rcases h1 : runJob env pol fuel { st with graph := ArchiveGraph.new }
          (Job.tree (treePaths [] t) none [] t) with ⟨s1, r1⟩
      rcases h2 : runJob env pol fuel { st' with graph := ArchiveGraph.new }
          (Job.tree (treePaths [] t) none [] t) with ⟨s1', r1'⟩
      rw [h1, h2] at hp1 hg1 hc1
      dsimp only at hp1 hg1 hc1
      subst hp1
      rcases r1 with c0 | d | _ | _ | _
      · dsimp only
        have hrest := ih s1 s1'
        rcases hr1 : calcList env pol fuel s1 ts with ⟨s2, q⟩
        rcases hr2 : calcList env pol fuel s1' ts with ⟨s2', q'⟩
        rw [hr1, hr2] at hrest
        dsimp only at hrest
        subst hrest
        rcases q with cs | _ | _ | _ <;> rfl
      · rfl
      · rfl
      · rfl
      · rfl
  refine ⟨hind, ?_⟩
  intro t st1 c hrun
  rcases h1 : runJob env pol fuel { St.init with graph := ArchiveGraph.new }
      (Job.tree (treePaths [] t) none [] t) with ⟨s1, r1⟩
  simp only [calculate_fvc, calcList, calcFvcOf, h1] at hrun
  rcases r1 with c0 | d | _ | _ | _
  · simp only [Prod.mk.injEq, RunRes.ok.injEq, List.cons.injEq, and_true] at hrun
    obtain ⟨hseq, hceq⟩ := hrun
    subst hseq
    subst hceq
    obtain ⟨hp1, hg1, hc1⟩ := runJob_shift env pol exf hdet fuel
      { St.init with graph := ArchiveGraph.new } { s1 with graph := ArchiveGraph.new }
      (Job.tree (treePaths [] t) none [] t) rfl
    rcases h2 : runJob env pol fuel { s1 with graph := ArchiveGraph.new }
        (Job.tree (treePaths [] t) none [] t) with ⟨s2, r2⟩
    rw [h1, h2] at hp1 hg1 hc1
    dsimp only [St.init] at hp1 hg1 hc1
    subst hp1
    simp only [calculate_fvc, calcList, calcFvcOf, h1, h2]
    refine ⟨trivial, ?_⟩
    show s2.calls = 2 * s1.calls
    omega
  · simp at hrun
  · simp at hrun
  · simp at hrun
  · simp at hrun

set_option maxRecDepth 1000000 in
/-- Witness for C10: the archive `a.zip` (bytes `[0]`, extracting to one
inner file) supplied twice yields its collection twice and twice the
extractor calls of the single run. -/
theorem calculate_fvc_fresh_dag_w :
    (calculate_fvc envW .all 9
        [FsTree.file "a.zip" [0], FsTree.file "a.zip" [0]]).2
      = RunRes.ok [cW, cW]
    ∧ (calculate_fvc envW .all 9
        [FsTree.file "a.zip" [0], FsTree.file "a.zip" [0]]).1.calls
      = 2 * st1W.calls :=
  (calculate_fvc_fresh_dag envW .all exfW (fun _ _ => rfl) 9).2
    (FsTree.file "a.zip" [0]) st1W cW (by rfl)

end FVC
